import Mathlib

/-!
Verification of the AudioCryptor steganography core.

The Python sources under src/services and src/utils are shallowly embedded
here: byte strings become lists of natural numbers (each element a byte
value), numpy int16 sample buffers become lists of natural numbers holding
the 16-bit two-complement word of each sample (all operations involved
touch only low-order bits and the remaining high bits, so the word view is
exact), exceptions become the Except monad over an explicit error type,
and machine arithmetic is Nat with explicit reduction mod 2 ^ 32 where the
source relies on 32-bit wraparound.
-/

namespace AudioCryptor

/-- Errors raised by the embedded services.  The Python code raises
StegoError with distinguishing messages; each constructor corresponds to
one raise site (or to a library exception that the code wraps). -/
inductive StegoErr where
  | headerTooShort
  | crcMismatch
  | structUnpack
  | invalidMagic
  | unsupportedVersion (v : Nat)
  | invalidLsbBits (n : Nat)
  | structPack
  | insufficientCapacity (required available : Nat)
  | indexOutOfBounds (idx : Nat)
  | notEnoughSamplesForScatter
  | audioTooShortForHeader
  | audioTooShortForMessage
  | invalidTag
deriving DecidableEq, Repr

/-- Parsed header fields, mirroring the dict returned by
StegoService._parse_header (src/services/stego.py lines 292 to 299). -/
structure HeaderInfo where
  version : Nat
  lsb_bits : Nat
  scatter : Bool
  salt : List Nat
  nonce : List Nat
  payload_length : Nat
deriving DecidableEq, Repr

/-! ## Bit packer (src/utils/bytes.py, class BitPacker) -/

/-- BitPacker.bytes_to_bits: each byte expands to 8 bits, most significant
first (src/utils/bytes.py lines 13 to 29). -/
def bytes_to_bits (data : List Nat) : List Nat :=
  data.flatMap (fun byte => (List.range 8).map (fun i => (byte >>> (7 - i)) &&& 1))

/-- Inner loop of BitPacker.bits_to_bytes: byte |= bits[i+j] << (7-j),
with the j counter threaded explicitly. -/
def byteOfBitsAux : List Nat → Nat → Nat
  | [], _ => 0
  | b :: t, j => (b <<< (7 - j)) ||| byteOfBitsAux t (j + 1)

/-- Grouping loop of BitPacker.bits_to_bytes over successive chunks of 8
bits.  After the padding step the list length is a multiple of 8, so the
short fallback arms are never reached from bits_to_bytes. -/
def bitsToBytesAux : List Nat → List Nat
  | b0 :: b1 :: b2 :: b3 :: b4 :: b5 :: b6 :: b7 :: rest =>
      byteOfBitsAux [b0, b1, b2, b3, b4, b5, b6, b7] 0 :: bitsToBytesAux rest
  | [] => []
  | leftover => [byteOfBitsAux leftover 0]

/-- BitPacker.bits_to_bytes: right-pads with zero bits to a multiple of 8,
then groups (src/utils/bytes.py lines 31 to 54). -/
def bits_to_bytes (bits : List Nat) : List Nat :=
  bitsToBytesAux (bits ++ List.replicate ((8 - bits.length % 8) % 8) 0)

/-! ## CRC-32 (src/utils/bytes.py, calculate_crc32 via zlib.crc32) -/

/-- One bit step of the reflected CRC-32 with polynomial 0xEDB88320, the
algorithm implemented by zlib.crc32. -/
def crcShift (c : Nat) : Nat :=
  if c &&& 1 = 1 then (c >>> 1) ^^^ 0xEDB88320 else c >>> 1

/-- Eight bit steps, i.e. one byte worth of shifting. -/
def crcShift8 (c : Nat) : Nat :=
  crcShift (crcShift (crcShift (crcShift (crcShift (crcShift (crcShift (crcShift c)))))))

/-- Fold one byte into the running CRC state. -/
def crcUpdate (c b : Nat) : Nat := crcShift8 (c ^^^ b)

/-- calculate_crc32(data) = zlib.crc32(data) & 0xffffffff
(src/utils/bytes.py lines 88 to 98): initial state 0xFFFFFFFF, final
complement, result already an unsigned 32-bit value. -/
def calculate_crc32 (data : List Nat) : Nat :=
  (data.foldl crcUpdate 0xFFFFFFFF) ^^^ 0xFFFFFFFF

/-! ## SHA-256 (hashlib.sha256, used by _generate_scatter_indices) -/

/-- Reduce to a 32-bit word. -/
def w32 (x : Nat) : Nat := x % 4294967296

/-- Rotate a 32-bit word right by n (0 < n < 32). -/
def rotr32 (x n : Nat) : Nat := w32 ((x >>> n) ||| (x <<< (32 - n)))

def shaS0 (x : Nat) : Nat := rotr32 x 7 ^^^ rotr32 x 18 ^^^ (x >>> 3)
def shaS1 (x : Nat) : Nat := rotr32 x 17 ^^^ rotr32 x 19 ^^^ (x >>> 10)
def shaB0 (x : Nat) : Nat := rotr32 x 2 ^^^ rotr32 x 13 ^^^ rotr32 x 22
def shaB1 (x : Nat) : Nat := rotr32 x 6 ^^^ rotr32 x 11 ^^^ rotr32 x 25

/-- The 64 SHA-256 round constants. -/
def shaK : List Nat :=
  [1116352408, 1899447441, 3049323471, 3921009573, 961987163, 1508970993,
   2453635748, 2870763221, 3624381080, 310598401, 607225278, 1426881987,
   1925078388, 2162078206, 2614888103, 3248222580, 3835390401, 4022224774,
   264347078, 604807628, 770255983, 1249150122, 1555081692, 1996064986,
   2554220882, 2821834349, 2952996808, 3210313671, 3336571891, 3584528711,
   113926993, 338241895, 666307205, 773529912, 1294757372, 1396182291,
   1695183700, 1986661051, 2177026350, 2456956037, 2730485921, 2820302411,
   3259730800, 3345764771, 3516065817, 3600352804, 4094571909, 275423344,
   430227734, 506948616, 659060556, 883997877, 958139571, 1322822218,
   1537002063, 1747873779, 1955562222, 2024104815, 2227730452, 2361852424,
   2428436474, 2756734187, 3204031479, 3329325298]

/-- SHA-256 initial hash state. -/
def shaH0 : List Nat :=
  [1779033703, 3144134277, 1013904242, 2773480762, 1359893119, 2600822924,
   528734635, 1541459225]

/-- Big-endian 4-byte encoding of a 32-bit value (struct format >I). -/
def packBE4 (n : Nat) : List Nat :=
  [(n >>> 24) &&& 255, (n >>> 16) &&& 255, (n >>> 8) &&& 255, n &&& 255]

/-- Big-endian 8-byte encoding of a 64-bit value. -/
def packBE8 (n : Nat) : List Nat :=
  [(n >>> 56) &&& 255, (n >>> 48) &&& 255, (n >>> 40) &&& 255, (n >>> 32) &&& 255,
   (n >>> 24) &&& 255, (n >>> 16) &&& 255, (n >>> 8) &&& 255, n &&& 255]

/-- Big-endian interpretation of a byte list, as int.from_bytes(_, big). -/
def bytesToNatBE (l : List Nat) : Nat :=
  l.foldl (fun acc b => acc * 256 + b) 0

/-- Group a byte list into big-endian 32-bit words. -/
def wordsOfBytes : List Nat → List Nat
  | a :: b :: c :: d :: rest => (((a * 256 + b) * 256 + c) * 256 + d) :: wordsOfBytes rest
  | _ => []

/-- SHA-256 padding: append 0x80, zero bytes to 56 mod 64, then the
bit length as a big-endian 64-bit integer. -/
def shaPad (msg : List Nat) : List Nat :=
  msg ++ [0x80] ++ List.replicate ((119 - msg.length % 64) % 64) 0 ++ packBE8 (msg.length * 8)

/-- Extend the 16 message words to the 64-entry message schedule. -/
def shaSchedule (w16 : List Nat) : List Nat :=
  (List.range 48).foldl
    (fun w i =>
      w ++ [w32 (w.getD i 0 + shaS0 (w.getD (i + 1) 0) + w.getD (i + 9) 0 + shaS1 (w.getD (i + 14) 0))])
    w16

/-- One SHA-256 compression round on the eight working registers. -/
def shaRound (st : List Nat) (k wv : Nat) : List Nat :=
  match st with
  | [a, b, c, d, e, f, g, h] =>
    let ch := (e &&& f) ^^^ ((e ^^^ 0xFFFFFFFF) &&& g)
    let maj := (a &&& b) ^^^ (a &&& c) ^^^ (b &&& c)
    let t1 := w32 (h + shaB1 e + ch + k + wv)
    let t2 := w32 (shaB0 a + maj)
    [w32 (t1 + t2), a, b, c, w32 (d + t1), e, f, g]
  | other => other

/-- Compress one 64-byte block into the hash state. -/
def shaBlock (hst : List Nat) (block : List Nat) : List Nat :=
  let w := shaSchedule (wordsOfBytes block)
  let fin := (List.range 64).foldl (fun st i => shaRound st (shaK.getD i 0) (w.getD i 0)) hst
  List.zipWith (fun x y => w32 (x + y)) hst fin

/-- SHA-256 digest of a byte list, as hashlib.sha256(data).digest(). -/
def sha256 (msg : List Nat) : List Nat :=
  let padded := shaPad msg
  let hFin := (List.range (padded.length / 64)).foldl
    (fun h i => shaBlock h ((padded.drop (64 * i)).take 64)) shaH0
  hFin.flatMap packBE4

/-! ## Mersenne Twister (CPython random.Random, used via random.Random(seed)
and rng.shuffle in _generate_scatter_indices) -/

/-- State of the MT19937 generator: the 624-word vector and the index. -/
structure MTState where
  mt : List Nat
  mti : Nat
deriving Repr

/-- init_genrand of CPython _randommodule.c: fill the state vector from a
32-bit seed. -/
def mtInitGenrand (s : Nat) : List Nat :=
  (List.range 623).foldl
    (fun mt i =>
      let prev := mt.getD i 0
      mt ++ [w32 (1812433253 * (prev ^^^ (prev >>> 30)) + (i + 1))])
    [w32 s]

/-- Advance (mt, i) by one step of the first init_by_array mixing loop,
for a one-word key (the key index j is always 0 for key length 1). -/
def mtMix1 (key0 : Nat) (st : List Nat × Nat) (_ : Nat) : List Nat × Nat :=
  let mt := st.1
  let i := st.2
  let prev := mt.getD (i - 1) 0
  let v := w32 ((mt.getD i 0 ^^^ w32 ((prev ^^^ (prev >>> 30)) * 1664525)) + key0)
  let mt := mt.set i v
  let i := i + 1
  if i ≥ 624 then (mt.set 0 (mt.getD 623 0), 1) else (mt, i)

/-- Advance (mt, i) by one step of the second init_by_array mixing loop;
the subtraction of i is 32-bit wraparound subtraction. -/
def mtMix2 (st : List Nat × Nat) (_ : Nat) : List Nat × Nat :=
  let mt := st.1
  let i := st.2
  let prev := mt.getD (i - 1) 0
  let v := w32 ((mt.getD i 0 ^^^ w32 ((prev ^^^ (prev >>> 30)) * 1566083941)) + 4294967296 - i)
  let mt := mt.set i v
  let i := i + 1
  if i ≥ 624 then (mt.set 0 (mt.getD 623 0), 1) else (mt, i)

/-- CPython random.seed(n) for an int n with 0 <= n < 2 ^ 32: init_by_array
with the single-word key [n], then force mt[0] = 0x80000000 and set the
index to 624 so the first output triggers a twist. -/
def pyRandomSeed (seed : Nat) : MTState :=
  let mt0 := mtInitGenrand 19650218
  let st1 := (List.range 624).foldl (mtMix1 (w32 seed)) (mt0, 1)
  let st2 := (List.range 623).foldl mtMix2 st1
  ⟨st2.1.set 0 0x80000000, 624⟩

/-- One entry of the MT19937 twist, reading from the vector mid-update
exactly as the in-place C loop does. -/
def mtTwistStep (mt : List Nat) (kk : Nat) : List Nat :=
  let y := (mt.getD kk 0 &&& 0x80000000) ||| (mt.getD ((kk + 1) % 624) 0 &&& 0x7fffffff)
  let v := mt.getD ((kk + 397) % 624) 0 ^^^ (y >>> 1) ^^^ (if y &&& 1 = 1 then 0x9908b0df else 0)
  mt.set kk v

/-- Regenerate all 624 words of the state vector. -/
def mtTwist (mt : List Nat) : List Nat :=
  (List.range 624).foldl mtTwistStep mt

/-- MT19937 output tempering. -/
def mtTemper (y0 : Nat) : Nat :=
  let y1 := y0 ^^^ (y0 >>> 11)
  let y2 := y1 ^^^ ((y1 <<< 7) &&& 0x9d2c5680)
  let y3 := y2 ^^^ ((y2 <<< 15) &&& 0xefc60000)
  y3 ^^^ (y3 >>> 18)

/-- genrand_uint32: twist when the index reaches 624, then emit the next
tempered word. -/
def genrandUint32 (g : MTState) : Nat × MTState :=
  let st := if g.mti ≥ 624 then (mtTwist g.mt, 0) else (g.mt, g.mti)
  (mtTemper (st.1.getD st.2 0), ⟨st.1, st.2 + 1⟩)

/-- getrandbits(k) for 0 < k <= 32: the top k bits of one output word. -/
def getrandbits (g : MTState) (k : Nat) : Nat × MTState :=
  let r := genrandUint32 g
  (r.1 >>> (32 - k), r.2)

/-- Rejection loop of Random._randbelow_with_getrandbits.  The source
loops until a draw below n appears; the loop has no a priori bound, so it
is embedded with a large fuel and a fallback draw of 0 that is never
reached for any input arising in this development. -/
def randbelowLoop : Nat → MTState → Nat → Nat → Nat × MTState
  | 0, g, _, _ => (0, g)
  | fuel + 1, g, n, k =>
    let r := getrandbits g k
    if r.1 < n then r else randbelowLoop fuel r.2 n k

/-- Python int.bit_length. -/
def pyBitLength (n : Nat) : Nat := if n = 0 then 0 else Nat.log2 n + 1

/-- Random._randbelow_with_getrandbits(n): 0 for n = 0, otherwise draws
of bit_length(n) bits until one is below n. -/
def randbelow (g : MTState) (n : Nat) : Nat × MTState :=
  if n = 0 then (0, g) else randbelowLoop 1000000 g n (pyBitLength n)

/-- The parallel assignment x[i], x[j] = x[j], x[i]. -/
def swapAt (x : List Nat) (i j : Nat) : List Nat :=
  let xi := x.getD i 0
  let xj := x.getD j 0
  (x.set i xj).set j xi

/-- The loop of random.shuffle, counting the loop variable down from
len(x) - 1 to 1: at loop value i, draw j = randbelow(i + 1) and swap
positions i and j.  The argument n below is the current loop value. -/
def shuffleFrom (g : MTState) (x : List Nat) : Nat → List Nat × MTState
  | 0 => (x, g)
  | n + 1 =>
    let r := randbelow g (n + 2)
    shuffleFrom r.2 (swapAt x (n + 1) r.1) n

/-- random.shuffle(x) for a list x, returning the shuffled list and the
advanced generator state. -/
def pyShuffle (g : MTState) (x : List Nat) : List Nat × MTState :=
  shuffleFrom g x (x.length - 1)

/-! ## Header codec (src/services/stego.py, _create_header and _parse_header) -/

/-- The ASTG magic tag. -/
def magic_bytes : List Nat := [65, 83, 84, 71]

/-- The supported container version. -/
def headerVersion : Nat := 1

/-- Total header size in bytes. -/
def header_size : Nat := 42

/-- Semantics of a struct ks field: the byte string is truncated or
zero-padded on the right to exactly k bytes. -/
def padTo (k : Nat) (s : List Nat) : List Nat :=
  s.take k ++ List.replicate (k - s.length) 0

/-- The flags byte of _create_header: LSB count in bits 0 and 1, scatter
flag in bit 2. -/
def headerFlags (lsb_bits : Nat) (scatter : Bool) : Nat :=
  (lsb_bits &&& 3) ||| (if scatter then 4 else 0)

/-- The first 38 header bytes, before the CRC is appended. -/
def headerBase (salt nonce : List Nat) (payload_length lsb_bits : Nat)
    (scatter : Bool) : List Nat :=
  magic_bytes ++ [headerVersion, headerFlags lsb_bits scatter]
    ++ padTo 16 salt ++ padTo 12 nonce ++ packBE4 payload_length

/-- StegoService._create_header (src/services/stego.py lines 227 to 254):
pack magic, version, flags, salt, nonce and payload length big-endian,
then append the CRC32 of those 38 bytes.  struct.pack with format >I
raises for a payload length outside 32 bits; that raise is the structPack
error. -/
def create_header (salt nonce : List Nat) (payload_length lsb_bits : Nat)
    (scatter : Bool) : Except StegoErr (List Nat) :=
  if payload_length < 4294967296 then
    let base := headerBase salt nonce payload_length lsb_bits scatter
    .ok (base ++ packBE4 (calculate_crc32 base))
  else
    .error .structPack

/-- StegoService._parse_header (src/services/stego.py lines 256 to 304):
length check, CRC check over everything but the last 4 bytes, struct
unpack (which demands exactly 38 remaining bytes), magic check, version
check, flags decoding with the LSB-count guard lsb < 1 or lsb > 3. -/
def parse_header (header_bytes : List Nat) : Except StegoErr HeaderInfo :=
  if header_bytes.length < header_size then .error .headerTooShort
  else
    let body := header_bytes.take (header_bytes.length - 4)
    let expected_crc := calculate_crc32 body
    let actual_crc := bytesToNatBE (header_bytes.drop (header_bytes.length - 4))
    if expected_crc ≠ actual_crc then .error .crcMismatch
    else if body.length ≠ 38 then .error .structUnpack
    else
      let magic := body.take 4
      let ver := body.getD 4 0
      let flags := body.getD 5 0
      let salt := (body.drop 6).take 16
      let nonce := (body.drop 22).take 12
      let payload_length := bytesToNatBE ((body.drop 34).take 4)
      if magic ≠ magic_bytes then .error .invalidMagic
      else if ver ≠ headerVersion then .error (.unsupportedVersion ver)
      else
        let lsb_bits := flags &&& 3
        let scatter := flags &&& 4 != 0
        if lsb_bits < 1 ∨ 3 < lsb_bits then .error (.invalidLsbBits lsb_bits)
        else .ok ⟨ver, lsb_bits, scatter, salt, nonce, payload_length⟩

/-! ## Scatter index generation (src/services/stego.py lines 306 to 337) -/

/-- The domain tag bytes of b"scatter". -/
def scatterTag : List Nat := [115, 99, 97, 116, 116, 101, 114]

/-- Seed derivation of _generate_scatter_indices:
int.from_bytes(hashlib.sha256(salt + b"scatter").digest()[:4], big). -/
def scatterSeed (salt : List Nat) : Nat :=
  bytesToNatBE ((sha256 (salt ++ scatterTag)).take 4)

/-- StegoService._generate_scatter_indices: seed a random.Random from the
salt, fail when count exceeds the available samples, otherwise shuffle
the identity permutation and keep the first count entries. -/
def generate_scatter_indices (count total_samples : Nat) (salt : List Nat) :
    Except StegoErr (List Nat) :=
  let seed := scatterSeed salt
  let rng := pyRandomSeed seed
  if count > total_samples then .error .notEnoughSamplesForScatter
  else .ok ((pyShuffle rng (List.range total_samples)).1.take count)

/-! ## Embedding engine (src/services/stego.py, embed_message and
extract_message) -/

/-- One LSB write of embed_message: clear the lsb_bits low-order bits of
the sample (sample & ~((1 << lsb_bits) - 1), expressed on the 16-bit word
as shifting out and back), then set bit 0 when the data bit is truthy. -/
def writeBit (sample lsb_bits bit : Nat) : Nat :=
  let cleared := (sample >>> lsb_bits) <<< lsb_bits
  if bit ≠ 0 then cleared ||| 1 else cleared

/-- The write loops of embed_message: write each (position, bit) pair in
order into the flat sample list; a position beyond the buffer is the
numpy IndexError that embed_message wraps into a StegoError. -/
def embedBits (lsb_bits : Nat) : List Nat → List (Nat × Nat) → Except StegoErr (List Nat)
  | flat, [] => .ok flat
  | flat, (pos, bit) :: rest =>
    if pos < flat.length then
      embedBits lsb_bits (flat.set pos (writeBit (flat.getD pos 0) lsb_bits bit)) rest
    else
      .error (.indexOutOfBounds pos)

/-- StegoService.embed_message (src/services/stego.py lines 57 to 149) on
the flattened sample buffer: build the header, check capacity, write the
336 header bits sequentially, then write the payload bits sequentially or
at the scatter positions.  The reshape at the end is the identity on the
flat view. -/
def embed_message (audio_data encrypted_data salt nonce : List Nat)
    (lsb_bits : Nat) (scatter : Bool) : Except StegoErr (List Nat) := do
  let header ← create_header salt nonce encrypted_data.length lsb_bits scatter
  let payload := header ++ encrypted_data
  let total_samples := audio_data.length
  let required_bits := payload.length * 8
  let available_bits := total_samples * lsb_bits
  if required_bits > available_bits then
    throw (.insufficientCapacity required_bits available_bits)
  else
    let payload_bits := bytes_to_bits payload
    let header_bits := payload_bits.take (header_size * 8)
    let payload_data_bits := payload_bits.drop (header_size * 8)
    let flat1 ← embedBits lsb_bits audio_data ((List.range header_bits.length).zip header_bits)
    if scatter then
      let idxs ← generate_scatter_indices payload_data_bits.length
        (total_samples - header_size * 8) salt
      embedBits lsb_bits flat1 ((idxs.map (fun ix => header_size * 8 + ix)).zip payload_data_bits)
    else
      embedBits lsb_bits flat1
        (((List.range payload_data_bits.length).map (fun i => header_size * 8 + i)).zip payload_data_bits)

/-- The sample positions that a successful embed_message call writes: the
first 336 positions for the header, then one position per payload bit,
either sequential after the header region or at the scatter offsets. -/
def embedTargets (total_samples payload_bit_count : Nat) (salt : List Nat)
    (scatter : Bool) : List Nat :=
  List.range (header_size * 8) ++
    (if scatter then
      ((pyShuffle (pyRandomSeed (scatterSeed salt))
          (List.range (total_samples - header_size * 8))).1.take payload_bit_count).map
        (fun ix => header_size * 8 + ix)
    else
      (List.range payload_bit_count).map (fun i => header_size * 8 + i))

/-- The LSB read loops of extract_message: read bit 0 of the sample at
each position in order, failing on a position beyond the buffer. -/
def readBits (flat : List Nat) : List Nat → Except StegoErr (List Nat)
  | [] => .ok []
  | p :: rest =>
    if p < flat.length then do
      let bits ← readBits flat rest
      .ok ((flat.getD p 0 &&& 1) :: bits)
    else
      .error .audioTooShortForMessage

/-- StegoService.extract_message (src/services/stego.py lines 151 to 225):
read the 336 header LSBs sequentially, parse the header, then read the
payload bits at the scatter positions or sequentially after the header
region, and return (ciphertext, salt, nonce). -/
def extract_message (audio_data : List Nat) :
    Except StegoErr (List Nat × List Nat × List Nat) :=
  if audio_data.length < header_size * 8 then .error .audioTooShortForHeader
  else do
    let header_bits := (audio_data.take (header_size * 8)).map (fun s => s &&& 1)
    let header_bytes := bits_to_bytes header_bits
    let info ← parse_header header_bytes
    let payload_size := info.payload_length
    if info.scatter then
      let idxs ← generate_scatter_indices (payload_size * 8)
        (audio_data.length - header_size * 8) info.salt
      let payload_bits ← readBits audio_data (idxs.map (fun ix => header_size * 8 + ix))
      return (bits_to_bytes payload_bits, info.salt, info.nonce)
    else
      let payload_bits ← readBits audio_data
        ((List.range (payload_size * 8)).map (fun i => header_size * 8 + i))
      return (bits_to_bytes payload_bits, info.salt, info.nonce)

/-- StegoService.calculate_capacity (src/services/stego.py lines 25 to 55)
after the audio has been loaded: total bits, floor-divide into bytes,
subtract the header size, clamp at zero. -/
def calculate_capacity (total_samples lsb_bits : Nat) : Int :=
  let total_bits := total_samples * lsb_bits
  let total_bytes : Int := (total_bits : Int) / 8
  max 0 (total_bytes - header_size)

/-- Capacity formula exactly as the spec words it:
max(0, floor(totalSamples * lsbBits / 8) - 42). -/
def specCapacity (totalSamples lsbBits : Nat) : Int :=
  max 0 ((totalSamples * lsbBits / 8 : Nat) - (42 : Int))

/-! ## Crypto layer (src/services/crypto.py).  PBKDF2-HMAC-SHA256 is fully
determined by the source parameters and reproduced concretely below.  The
AES-256-GCM AEAD itself lives in the external cryptography package, not
in this repository, so it is modelled from the spec. -/

/-- HMAC-SHA256 with the standard 64-byte block. -/
def hmacSha256 (key msg : List Nat) : List Nat :=
  let k0 := if key.length > 64 then padTo 64 (sha256 key) else padTo 64 key
  let ipad := k0.map (fun b => b ^^^ 0x36)
  let opad := k0.map (fun b => b ^^^ 0x5c)
  sha256 (opad ++ sha256 (ipad ++ msg))

/-- CryptoService._derive_key: PBKDF2-HMAC-SHA256 with 200000 iterations
and a 32-byte output, which is exactly the first PBKDF2 block:
U1 = HMAC(password, salt || 00000001), Ui = HMAC(password, Ui-1), result
the XOR of all Ui. -/
def derive_key (password salt : List Nat) : List Nat :=
  let u1 := hmacSha256 password (salt ++ packBE4 1)
  ((List.range 199999).foldl
    (fun st _ =>
      let u := hmacSha256 password st.1
      (u, List.zipWith Nat.xor st.2 u))
    (u1, u1)).2

/-- Modelled from the spec: the AES-256-GCM AEAD of the external
cryptography package (not part of this repository) is modelled per the
spec contract of section 4.2 as an authenticated stream cipher: the body
is the plaintext combined with a keystream determined by key and nonce,
and a 16-byte tag over (key, nonce, body) is appended, so the ciphertext
is 16 bytes longer than the message. -/
def keystream (key nonce : List Nat) (n : Nat) : List Nat :=
  (List.range n).map (fun i => (sha256 (key ++ nonce ++ packBE4 i)).getD 0 0)

/-- Modelled from the spec: AEAD encryption, body then 16-byte tag. -/
def aesgcm_encrypt (key nonce pt : List Nat) : List Nat :=
  let body := List.zipWith Nat.xor pt (keystream key nonce pt.length)
  body ++ (sha256 (key ++ nonce ++ body)).take 16

/-- Modelled from the spec: AEAD decryption verifies the trailing 16-byte
tag (failing with the InvalidTag error the source maps to a StegoError)
and inverts the keystream combination. -/
def aesgcm_decrypt (key nonce ct : List Nat) : Except StegoErr (List Nat) :=
  if ct.length < 16 then .error .invalidTag
  else
    let body := ct.take (ct.length - 16)
    let tag := ct.drop (ct.length - 16)
    if tag ≠ (sha256 (key ++ nonce ++ body)).take 16 then .error .invalidTag
    else .ok (List.zipWith Nat.xor body (keystream key nonce body.length))

/-- CryptoService.encrypt_message with the two os.urandom draws passed in
as the salt and nonce arguments; the message is represented by its UTF-8
byte sequence, so message.encode of the source is the identity here. -/
def encrypt_message (message password salt nonce : List Nat) : List Nat :=
  aesgcm_encrypt (derive_key password salt) nonce message

/-- CryptoService.decrypt_message; decrypted_bytes.decode of the source is
the identity on the UTF-8 byte representation. -/
def decrypt_message (encrypted_data password salt nonce : List Nat) :
    Except StegoErr (List Nat) :=
  aesgcm_decrypt (derive_key password salt) nonce encrypted_data

/-- The encode path of tabs_encode.py lines 328 to 333: encrypt, then
embed with the same salt and nonce. -/
def encodeMessage (audio message password salt nonce : List Nat)
    (lsb_bits : Nat) (scatter : Bool) : Except StegoErr (List Nat) :=
  embed_message audio (encrypt_message message password salt nonce) salt nonce lsb_bits scatter

/-- The decode path of tabs_decode.py lines 169 to 173: extract, then
decrypt with the extracted salt and nonce. -/
def decodeMessage (audio password : List Nat) : Except StegoErr (List Nat) := do
  let r ← extract_message audio
  decrypt_message r.1 password r.2.1 r.2.2

/-! ## Heap view of embed_message for the aliasing claim.  Arrays live in
a store indexed by reference; embed_message starts from
audio_data.flatten().copy(), a freshly allocated cell, and every write of
the loops lands in that fresh cell, so the program never writes through
the caller reference. -/

/-- embed_message acting on a store of arrays: read the argument array,
run the pure embedding on a fresh copy, and return the extended store
together with the reference of the newly allocated result array. -/
def embed_message_heap (store : List (List Nat)) (ref : Nat)
    (encrypted_data salt nonce : List Nat) (lsb_bits : Nat) (scatter : Bool) :
    Except StegoErr (List (List Nat) × Nat) :=
  match embed_message (store.getD ref []) encrypted_data salt nonce lsb_bits scatter with
  | .error e => .error e
  | .ok modified => .ok (store ++ [modified], store.length)

/-- Decidable equality of Except values, for evaluating the embedded
services on concrete inputs. -/
instance decEqExcept {ε α : Type} [DecidableEq ε] [DecidableEq α] :
    DecidableEq (Except ε α)
  | .ok a, .ok b =>
    match decEq a b with
    | isTrue h => isTrue (h ▸ rfl)
    | isFalse h => isFalse (fun hh => h (Except.ok.inj hh))
  | .error a, .error b =>
    match decEq a b with
    | isTrue h => isTrue (h ▸ rfl)
    | isFalse h => isFalse (fun hh => h (Except.error.inj hh))
  | .ok _, .error _ => isFalse Except.noConfusion
  | .error _, .ok _ => isFalse Except.noConfusion

/-! ## Arithmetic facts about the LSB write -/

/-- Setting bit 0 of an even number adds one. -/
theorem or_one_of_even (x : Nat) (hx : x % 2 = 0) : x ||| 1 = x + 1 := by
  apply Nat.eq_of_testBit_eq
  intro i
  cases i with
  | zero =>
    rw [Nat.testBit_or]
    simp only [Nat.testBit_zero]
    have h1 : (x + 1) % 2 = 1 := by omega
    simp [h1, hx]
  | succ n =>
    rw [Nat.testBit_or, Nat.testBit_succ, Nat.testBit_succ, Nat.testBit_succ]
    have h2 : (1 : Nat) / 2 = 0 := rfl
    rw [h2, Nat.zero_testBit, Bool.or_false]
    congr 1
    omega

/-- Arithmetic form of one LSB write: the sample with its low lsb_bits
bits cleared, plus the data bit in bit 0. -/
theorem writeBit_eq (s l b : Nat) (hl : 1 ≤ l) :
    writeBit s l b = (s >>> l) * 2 ^ l + (if b ≠ 0 then 1 else 0) := by
  unfold writeBit
  rw [Nat.shiftLeft_eq]
  have h2k : (2 : Nat) ^ l = 2 ^ (l - 1) * 2 := by
    conv_lhs => rw [show l = (l - 1) + 1 by omega]
    rw [pow_succ]
  have heven : s >>> l * 2 ^ l % 2 = 0 := by
    rw [h2k, ← mul_assoc, Nat.mul_mod_left]
  by_cases hb : b ≠ 0
  · rw [if_pos hb, if_pos hb, or_one_of_even _ heven]
  · rw [if_neg hb, if_neg hb, Nat.add_zero]

/-- Bit 0 of a written sample is exactly the data bit indicator. -/
theorem writeBit_and_one (s l b : Nat) (hl : 1 ≤ l) :
    writeBit s l b &&& 1 = (if b ≠ 0 then 1 else 0) := by
  rw [Nat.and_one_is_mod, writeBit_eq s l b hl]
  have h2k : (2 : Nat) ^ l = 2 ^ (l - 1) * 2 := by
    conv_lhs => rw [show l = (l - 1) + 1 by omega]
    rw [pow_succ]
  rw [h2k, ← mul_assoc]
  generalize s >>> l * 2 ^ (l - 1) = q
  split <;> omega

/-- Bits at positions at or above lsb_bits are untouched by the write. -/
theorem writeBit_shiftRight (s l b : Nat) (hl : 1 ≤ l) :
    writeBit s l b >>> l = s >>> l := by
  rw [writeBit_eq s l b hl, Nat.shiftRight_eq_div_pow]
  have hp : 0 < (2 : Nat) ^ l := Nat.pos_pow_of_pos l (by omega)
  have hlt : (if b ≠ 0 then 1 else 0) < 2 ^ l := by
    have : (2 : Nat) ≤ 2 ^ l := by
      calc (2 : Nat) = 2 ^ 1 := (pow_one 2).symm
      _ ≤ 2 ^ l := Nat.pow_le_pow_right (by omega) hl
    split <;> omega
  rw [mul_comm, Nat.mul_add_div hp, Nat.div_eq_of_lt hlt, Nat.shiftRight_eq_div_pow,
    Nat.add_zero]

/-! ## Bit packer lemmas -/

theorem bytes_to_bits_cons (b : Nat) (l : List Nat) :
    bytes_to_bits (b :: l) =
      ((b >>> 7) &&& 1) :: ((b >>> 6) &&& 1) :: ((b >>> 5) &&& 1) :: ((b >>> 4) &&& 1) ::
      ((b >>> 3) &&& 1) :: ((b >>> 2) &&& 1) :: ((b >>> 1) &&& 1) :: ((b >>> 0) &&& 1) ::
      bytes_to_bits l := by
  simp [bytes_to_bits, show List.range 8 = [0, 1, 2, 3, 4, 5, 6, 7] from rfl]

theorem length_bytes_to_bits (l : List Nat) :
    (bytes_to_bits l).length = 8 * l.length := by
  induction l with
  | nil => rfl
  | cons b t ih =>
    rw [bytes_to_bits_cons]
    simp only [List.length_cons, ih, List.length_cons]
    ring

theorem bytes_to_bits_append (a b : List Nat) :
    bytes_to_bits (a ++ b) = bytes_to_bits a ++ bytes_to_bits b := by
  simp [bytes_to_bits]

/-- Every emitted bit is 0 or 1. -/
theorem mem_bytes_to_bits_le_one (l : List Nat) :
    ∀ x ∈ bytes_to_bits l, x ≤ 1 := by
  intro x hx
  simp only [bytes_to_bits, List.mem_flatMap, List.mem_map] at hx
  obtain ⟨byte, _, i, _, rfl⟩ := hx
  rw [Nat.and_one_is_mod]
  omega

set_option maxRecDepth 40000 in
/-- Reassembling the MSB-first bits of one byte value below 256 restores
the byte. -/
theorem byteOfBits_byte : ∀ b < 256,
    byteOfBitsAux [(b >>> 7) &&& 1, (b >>> 6) &&& 1, (b >>> 5) &&& 1, (b >>> 4) &&& 1,
      (b >>> 3) &&& 1, (b >>> 2) &&& 1, (b >>> 1) &&& 1, (b >>> 0) &&& 1] 0 = b := by
  decide

theorem bitsToBytesAux_bytes (l : List Nat) (hl : ∀ x ∈ l, x < 256) :
    bitsToBytesAux (bytes_to_bits l) = l := by
  induction l with
  | nil => rfl
  | cons b t ih =>
    rw [bytes_to_bits_cons]
    rw [show ∀ x0 x1 x2 x3 x4 x5 x6 x7 rest,
        bitsToBytesAux (x0 :: x1 :: x2 :: x3 :: x4 :: x5 :: x6 :: x7 :: rest) =
          byteOfBitsAux [x0, x1, x2, x3, x4, x5, x6, x7] 0 :: bitsToBytesAux rest
      from fun _ _ _ _ _ _ _ _ _ => rfl]
    rw [byteOfBits_byte b (hl b (by simp)), ih (fun x hx => hl x (by simp [hx]))]

/-- Round trip of the bit packer on byte input. -/
theorem bits_to_bytes_bytes_to_bits (l : List Nat) (hl : ∀ x ∈ l, x < 256) :
    bits_to_bytes (bytes_to_bits l) = l := by
  unfold bits_to_bytes
  rw [length_bytes_to_bits]
  have hz : (8 - 8 * l.length % 8) % 8 = 0 := by omega
  rw [hz]
  simpa using bitsToBytesAux_bytes l hl

/-! ## Big-endian packing lemmas -/

theorem and_255_eq_mod (x : Nat) : x &&& 255 = x % 256 := by
  have h := Nat.and_pow_two_sub_one_eq_mod x 8
  norm_num at h
  exact h

theorem bytesToNatBE_packBE4 (n : Nat) (hn : n < 4294967296) :
    bytesToNatBE (packBE4 n) = n := by
  simp only [packBE4, bytesToNatBE, List.foldl, and_255_eq_mod,
    Nat.shiftRight_eq_div_pow]
  norm_num
  omega

theorem packBE4_mem_lt (n : Nat) : ∀ x ∈ packBE4 n, x < 256 := by
  intro x hx
  simp only [packBE4, List.mem_cons, List.not_mem_nil, or_false] at hx
  rcases hx with rfl | rfl | rfl | rfl <;>
    exact lt_of_le_of_lt Nat.and_le_right (by omega)

/-! ## CRC-32 bound -/

theorem crcShift_lt (c : Nat) (hc : c < 2 ^ 32) : crcShift c < 2 ^ 32 := by
  unfold crcShift
  have hdiv : c >>> 1 < 2 ^ 32 := by
    rw [Nat.shiftRight_eq_div_pow]
    exact lt_of_le_of_lt (Nat.div_le_self c (2 ^ 1)) hc
  split
  · exact Nat.xor_lt_two_pow hdiv (by norm_num)
  · exact hdiv

theorem crcUpdate_lt (c b : Nat) (hc : c < 2 ^ 32) (hb : b < 2 ^ 32) :
    crcUpdate c b < 2 ^ 32 := by
  unfold crcUpdate crcShift8
  have h0 : c ^^^ b < 2 ^ 32 := Nat.xor_lt_two_pow hc hb
  exact crcShift_lt _ (crcShift_lt _ (crcShift_lt _ (crcShift_lt _ (crcShift_lt _
    (crcShift_lt _ (crcShift_lt _ (crcShift_lt _ h0)))))))

theorem foldl_crcUpdate_lt (data : List Nat) :
    ∀ init : Nat, init < 2 ^ 32 → (∀ b ∈ data, b < 256) →
      data.foldl crcUpdate init < 2 ^ 32 := by
  induction data with
  | nil => intro init h _; simpa using h
  | cons b t ih =>
    intro init h hb
    simp only [List.foldl_cons]
    exact ih _ (crcUpdate_lt init b h (lt_trans (hb b (by simp)) (by norm_num)))
      (fun x hx => hb x (by simp [hx]))

theorem calculate_crc32_lt (data : List Nat) (h : ∀ b ∈ data, b < 256) :
    calculate_crc32 data < 4294967296 := by
  unfold calculate_crc32
  have := Nat.xor_lt_two_pow (n := 32)
    (foldl_crcUpdate_lt data 0xFFFFFFFF (by norm_num) h) (by norm_num : (0xFFFFFFFF : Nat) < 2 ^ 32)
  simpa using this

/-! ## SHA-256 digest byte bound -/

theorem sha256_mem_lt (m : List Nat) : ∀ x ∈ sha256 m, x < 256 := by
  intro x hx
  simp only [sha256, List.mem_flatMap] at hx
  obtain ⟨w, _, hw⟩ := hx
  exact packBE4_mem_lt w x hw

/-! ## Header codec lemmas -/

theorem padTo_length (k : Nat) (s : List Nat) : (padTo k s).length = k := by
  simp only [padTo, List.length_append, List.length_take, List.length_replicate]
  omega

theorem padTo_eq_self (k : Nat) (s : List Nat) (h : s.length = k) : padTo k s = s := by
  subst h
  simp [padTo]

theorem padTo_mem_lt (k : Nat) (s : List Nat) (hs : ∀ x ∈ s, x < 256) :
    ∀ x ∈ padTo k s, x < 256 := by
  intro x hx
  rcases List.mem_append.mp hx with h | h
  · exact hs x (List.mem_of_mem_take h)
  · rw [List.eq_of_mem_replicate h]; omega

theorem headerFlags_lt (lsb_bits : Nat) (scatter : Bool) :
    headerFlags lsb_bits scatter < 256 := by
  have h1 : lsb_bits &&& 3 < 2 ^ 8 := lt_of_le_of_lt Nat.and_le_right (by norm_num)
  have h2 : (if scatter then 4 else 0) < 2 ^ 8 := by split <;> norm_num
  have := Nat.or_lt_two_pow h1 h2
  simpa [headerFlags] using this

theorem headerBase_length (salt nonce : List Nat) (pl lsb : Nat) (sc : Bool) :
    (headerBase salt nonce pl lsb sc).length = 38 := by
  simp [headerBase, magic_bytes, padTo_length, packBE4]

theorem headerBase_mem_lt (salt nonce : List Nat) (pl lsb : Nat) (sc : Bool)
    (hs : ∀ x ∈ salt, x < 256) (hn : ∀ x ∈ nonce, x < 256) :
    ∀ x ∈ headerBase salt nonce pl lsb sc, x < 256 := by
  intro x hx
  simp only [headerBase, List.append_assoc, List.mem_append, magic_bytes,
    List.mem_cons, List.not_mem_nil, or_false] at hx
  rcases hx with (rfl | rfl | rfl | rfl) | (rfl | rfl) | h | h | h
  · omega
  · omega
  · omega
  · omega
  · simp [headerVersion]
  · exact headerFlags_lt lsb sc
  · exact padTo_mem_lt 16 salt hs x h
  · exact padTo_mem_lt 12 nonce hn x h
  · exact packBE4_mem_lt pl x h

/-- Parsing a header built by _create_header returns exactly the packed
fields, for a 16-byte salt, 12-byte nonce, 32-bit payload length and an
LSB count of 1 or 2. -/
theorem parse_header_headerBase (salt nonce : List Nat) (pl lsb : Nat) (sc : Bool)
    (hs : salt.length = 16) (hn : nonce.length = 12)
    (hsb : ∀ x ∈ salt, x < 256) (hnb : ∀ x ∈ nonce, x < 256)
    (hpl : pl < 4294967296) (hlsb : lsb = 1 ∨ lsb = 2) :
    parse_header (headerBase salt nonce pl lsb sc
        ++ packBE4 (calculate_crc32 (headerBase salt nonce pl lsb sc))) =
      .ok ⟨1, lsb, sc, salt, nonce, pl⟩ := by
  have hblen : (headerBase salt nonce pl lsb sc).length = 38 :=
    headerBase_length salt nonce pl lsb sc
  have hcrc : calculate_crc32 (headerBase salt nonce pl lsb sc) < 4294967296 :=
    calculate_crc32_lt _ (headerBase_mem_lt salt nonce pl lsb sc hsb hnb)
  have hlen : (headerBase salt nonce pl lsb sc
      ++ packBE4 (calculate_crc32 (headerBase salt nonce pl lsb sc))).length = 42 := by
    simp [hblen, packBE4]
  unfold parse_header
  rw [hlen]
  rw [if_neg (by simp [header_size])]
  rw [show (42 : Nat) - 4 = 38 from rfl]
  rw [List.take_left' hblen, List.drop_left' hblen]
  rw [bytesToNatBE_packBE4 _ hcrc]
  rw [if_neg (by simp)]
  rw [if_neg (by simp [hblen])]
  have hbase : headerBase salt nonce pl lsb sc =
      65 :: 83 :: 84 :: 71 :: headerVersion :: headerFlags lsb sc ::
        (padTo 16 salt ++ (padTo 12 nonce ++ packBE4 pl)) := by
    simp [headerBase, magic_bytes]
  rw [hbase]
  have hsalt16 : padTo 16 salt = salt := padTo_eq_self 16 salt hs
  have hnonce12 : padTo 12 nonce = nonce := padTo_eq_self 12 nonce hn
  have htake4 : (65 :: 83 :: 84 :: 71 :: headerVersion :: headerFlags lsb sc ::
      (padTo 16 salt ++ (padTo 12 nonce ++ packBE4 pl))).take 4 = magic_bytes := by
    simp [magic_bytes]
  have hdrop6 : (65 :: 83 :: 84 :: 71 :: headerVersion :: headerFlags lsb sc ::
      (padTo 16 salt ++ (padTo 12 nonce ++ packBE4 pl))).drop 6 =
      padTo 16 salt ++ (padTo 12 nonce ++ packBE4 pl) := rfl
  have hsaltlen : (padTo 16 salt).length = 16 := padTo_length 16 salt
  have hnoncelen : (padTo 12 nonce).length = 12 := padTo_length 12 nonce
  have hdrop22 : (65 :: 83 :: 84 :: 71 :: headerVersion :: headerFlags lsb sc ::
      (padTo 16 salt ++ (padTo 12 nonce ++ packBE4 pl))).drop 22 =
      padTo 12 nonce ++ packBE4 pl := by
    rw [show (22 : Nat) = 6 + 16 by rfl, ← List.drop_drop, hdrop6,
      List.drop_left' hsaltlen]
  have hdrop34 : (65 :: 83 :: 84 :: 71 :: headerVersion :: headerFlags lsb sc ::
      (padTo 16 salt ++ (padTo 12 nonce ++ packBE4 pl))).drop 34 = packBE4 pl := by
    rw [show (34 : Nat) = 22 + 12 by rfl, ← List.drop_drop, hdrop22,
      List.drop_left' hnoncelen]
  rw [htake4, hdrop6, hdrop22, hdrop34]
  rw [if_neg (by simp)]
  rw [if_neg (by simp [headerVersion])]
  rw [List.take_left' hsaltlen, List.take_left' hnoncelen,
    List.take_of_length_le (by simp [packBE4])]
  rw [bytesToNatBE_packBE4 pl hpl, hsalt16, hnonce12]
  rcases hlsb with rfl | rfl <;> cases sc <;>
    simp [headerFlags, headerVersion, List.getD,
      show (5 : Nat) &&& 3 = 1 from rfl, show (5 : Nat) &&& 4 = 4 from rfl,
      show (1 : Nat) &&& 3 = 1 from rfl, show (1 : Nat) &&& 4 = 0 from rfl,
      show (6 : Nat) &&& 3 = 2 from rfl, show (6 : Nat) &&& 4 = 4 from rfl,
      show (2 : Nat) &&& 3 = 2 from rfl, show (2 : Nat) &&& 4 = 0 from rfl]

/-! ## Write-loop and read-loop lemmas -/

theorem embedBits_ok_length (l : Nat) (ps : List (Nat × Nat)) :
    ∀ flat out, embedBits l flat ps = .ok out → out.length = flat.length := by
  induction ps with
  | nil =>
    intro flat out h
    simp only [embedBits] at h
    cases h
    rfl
  | cons p rest ih =>
    intro flat out h
    obtain ⟨pos, bit⟩ := p
    simp only [embedBits] at h
    split at h
    · have := ih _ _ h
      simpa using this
    · cases h

theorem embedBits_ok_of_forall_lt (l : Nat) (ps : List (Nat × Nat)) :
    ∀ flat, (∀ p ∈ ps, p.1 < flat.length) → ∃ out, embedBits l flat ps = .ok out := by
  induction ps with
  | nil => intro flat _; exact ⟨flat, rfl⟩
  | cons p rest ih =>
    intro flat h
    obtain ⟨pos, bit⟩ := p
    have hlt : pos < flat.length := h (pos, bit) (by simp)
    obtain ⟨out, hout⟩ := ih (flat.set pos (writeBit (flat.getD pos 0) l bit))
      (fun q hq => by
        have := h q (by simp [hq])
        simpa using this)
    exact ⟨out, by simp only [embedBits]; rw [if_pos hlt]; exact hout⟩

theorem embedBits_getElem?_of_not_mem (l : Nat) (ps : List (Nat × Nat)) :
    ∀ flat out q, embedBits l flat ps = .ok out → (∀ p ∈ ps, p.1 ≠ q) →
      out[q]? = flat[q]? := by
  induction ps with
  | nil =>
    intro flat out q h _
    simp only [embedBits] at h
    cases h
    rfl
  | cons p rest ih =>
    intro flat out q h hq
    obtain ⟨pos, bit⟩ := p
    simp only [embedBits] at h
    split at h
    · have hne : pos ≠ q := hq (pos, bit) (by simp)
      rw [ih _ _ q h (fun p hp => hq p (by simp [hp]))]
      exact List.getElem?_set_ne hne
    · cases h

theorem embedBits_getElem?_of_mem (l : Nat) (ps : List (Nat × Nat)) :
    ∀ flat out pos bit, embedBits l flat ps = .ok out → (ps.map Prod.fst).Nodup →
      (pos, bit) ∈ ps → out[pos]? = some (writeBit (flat.getD pos 0) l bit) := by
  induction ps with
  | nil => intro flat out pos bit _ _ hmem; cases hmem
  | cons p rest ih =>
    intro flat out pos bit h hnd hmem
    obtain ⟨pos0, bit0⟩ := p
    simp only [embedBits] at h
    split at h
    case isTrue hlt =>
      have hnd2 : (rest.map Prod.fst).Nodup := (List.nodup_cons.mp hnd).2
      have hhead : pos0 ∉ rest.map Prod.fst := (List.nodup_cons.mp hnd).1
      rcases List.mem_cons.mp hmem with heq | hmem2
      · obtain ⟨rfl, rfl⟩ := Prod.mk.injEq .. ▸ heq
        have hnotin : ∀ p ∈ rest, p.1 ≠ pos := by
          intro p hp he
          exact hhead (he ▸ List.mem_map_of_mem Prod.fst hp)
        rw [embedBits_getElem?_of_not_mem l rest _ out pos h hnotin]
        simp [List.getElem?_set_self, hlt]
      · have hne : pos0 ≠ pos := by
          intro e
          exact hhead (e ▸ List.mem_map_of_mem Prod.fst hmem2)
        have hgd : (flat.set pos0 (writeBit (flat.getD pos0 0) l bit0)).getD pos 0 =
            flat.getD pos 0 := by
          simp [List.getD_eq_getElem?_getD, List.getElem?_set_ne hne]
        rw [ih _ _ pos bit h hnd2 hmem2, hgd]
    · cases h

theorem readBits_ok (flat : List Nat) (qs : List Nat)
    (h : ∀ q ∈ qs, q < flat.length) :
    readBits flat qs = .ok (qs.map (fun q => flat.getD q 0 &&& 1)) := by
  induction qs with
  | nil => rfl
  | cons q rest ih =>
    simp only [readBits]
    rw [if_pos (h q (by simp)), ih (fun p hp => h p (by simp [hp]))]
    rfl

/-! ## Shuffle permutation lemmas -/

theorem randbelowLoop_lt (fuel : Nat) :
    ∀ g n k, 0 < n → (randbelowLoop fuel g n k).1 < n := by
  induction fuel with
  | zero => intro g n k h; simpa [randbelowLoop] using h
  | succ m ih =>
    intro g n k h
    simp only [randbelowLoop]
    split
    · assumption
    · exact ih _ n k h

theorem randbelow_lt (g : MTState) (n : Nat) (h : 0 < n) : (randbelow g n).1 < n := by
  unfold randbelow
  rw [if_neg (by omega)]
  exact randbelowLoop_lt 1000000 g n (pyBitLength n) h

theorem getD_cons_set_perm (t : List Nat) :
    ∀ m a, m < t.length → (t.getD m 0 :: t.set m a).Perm (a :: t) := by
  induction t with
  | nil => intro m a h; simp at h
  | cons b t2 ih =>
    intro m a h
    cases m with
    | zero => simpa [List.getD] using List.Perm.swap a b t2
    | succ m2 =>
      have h2 : m2 < t2.length := by simpa using h
      have s1 : (t2.getD m2 0 :: b :: t2.set m2 a).Perm (b :: t2.getD m2 0 :: t2.set m2 a) :=
        List.Perm.swap b (t2.getD m2 0) (t2.set m2 a)
      have s2 : (b :: t2.getD m2 0 :: t2.set m2 a).Perm (b :: a :: t2) :=
        List.Perm.cons b (ih m2 a h2)
      have s3 : (b :: a :: t2).Perm (a :: b :: t2) := List.Perm.swap a b t2
      simpa [List.getD] using (s1.trans s2).trans s3

theorem swapAt_perm (x : List Nat) :
    ∀ i j, i < x.length → j < x.length → (swapAt x i j).Perm x := by
  induction x with
  | nil => intro i j hi _; simp at hi
  | cons b t ih =>
    intro i j hi hj
    cases i with
    | zero =>
      cases j with
      | zero => simp [swapAt, List.getD]
      | succ j2 =>
        have hj2 : j2 < t.length := by simpa using hj
        simpa [swapAt, List.getD] using getD_cons_set_perm t j2 b hj2
    | succ i2 =>
      cases j with
      | zero =>
        have hi2 : i2 < t.length := by simpa using hi
        simpa [swapAt, List.getD] using getD_cons_set_perm t i2 b hi2
      | succ j2 =>
        have hi2 : i2 < t.length := by simpa using hi
        have hj2 : j2 < t.length := by simpa using hj
        simpa [swapAt, List.getD] using List.Perm.cons b (ih i2 j2 hi2 hj2)

theorem shuffleFrom_perm (n : Nat) :
    ∀ g x, n < x.length → ((shuffleFrom g x n).1).Perm x := by
  induction n with
  | zero => intro g x _; exact List.Perm.refl x
  | succ m ih =>
    intro g x h
    simp only [shuffleFrom]
    have hj : (randbelow g (m + 2)).1 < m + 2 := randbelow_lt g (m + 2) (by omega)
    have hswap : (swapAt x (m + 1) (randbelow g (m + 2)).1).Perm x :=
      swapAt_perm x (m + 1) (randbelow g (m + 2)).1 h (by omega)
    have hlen : (swapAt x (m + 1) (randbelow g (m + 2)).1).length = x.length := by
      simp [swapAt]
    exact (ih _ _ (by rw [hlen]; omega)).trans hswap

theorem pyShuffle_perm (g : MTState) (x : List Nat) : ((pyShuffle g x).1).Perm x := by
  unfold pyShuffle
  cases x with
  | nil => exact List.Perm.refl []
  | cons b t =>
    exact shuffleFrom_perm ((b :: t).length - 1) g (b :: t) (by simp)

/-- Full characterisation of a successful scatter-index generation call. -/
theorem generate_scatter_indices_spec (count total : Nat) (salt : List Nat)
    (h : count ≤ total) :
    generate_scatter_indices count total salt =
        .ok ((pyShuffle (pyRandomSeed (scatterSeed salt)) (List.range total)).1.take count) ∧
      ((pyShuffle (pyRandomSeed (scatterSeed salt)) (List.range total)).1.take count).length
          = count ∧
      ((pyShuffle (pyRandomSeed (scatterSeed salt)) (List.range total)).1.take count).Nodup ∧
      ∀ ix ∈ (pyShuffle (pyRandomSeed (scatterSeed salt)) (List.range total)).1.take count,
        ix < total := by
  have hperm : ((pyShuffle (pyRandomSeed (scatterSeed salt)) (List.range total)).1).Perm
      (List.range total) := pyShuffle_perm _ _
  refine ⟨?_, ?_, ?_, ?_⟩
  · unfold generate_scatter_indices
    rw [if_neg (by omega)]
  · rw [List.length_take, hperm.length_eq, List.length_range]
    omega
  · exact (hperm.nodup_iff.mpr (List.nodup_range total)).sublist (List.take_sublist _ _)
  · intro ix hix
    have : ix ∈ (pyShuffle (pyRandomSeed (scatterSeed salt)) (List.range total)).1 :=
      List.mem_of_mem_take hix
    exact List.mem_range.mp (hperm.mem_iff.mp this)

/-! ## Bridging lemmas for the round trip -/

theorem getD_of_getElem?_some {l : List Nat} {i v : Nat} (h : l[i]? = some v) :
    l.getD i 0 = v := by
  rw [List.getD_eq_getElem?_getD, h]
  rfl

theorem ite_bit_eq (b : Nat) (hb : b ≤ 1) : (if b ≠ 0 then 1 else 0) = b := by
  split <;> omega

theorem exbind_ok {ε α β : Type} (a : α) (f : α → Except ε β) :
    (Except.ok a >>= f : Except ε β) = f a := rfl

/-- Reading back bit 0 at the written positions recovers the written bits. -/
theorem embedBits_read (lsb : Nat) (hl : 1 ≤ lsb) (flat out : List Nat)
    (positions bits : List Nat)
    (h : embedBits lsb flat (positions.zip bits) = .ok out)
    (hnd : positions.Nodup) (hlen : positions.length = bits.length)
    (hbits : ∀ b ∈ bits, b ≤ 1) :
    positions.map (fun p => out.getD p 0 &&& 1) = bits := by
  apply List.ext_getElem?
  intro i
  rw [List.getElem?_map]
  by_cases hi : i < positions.length
  · have hib : i < bits.length := by omega
    have hp : positions[i]? = some positions[i] := List.getElem?_eq_getElem hi
    have hb : bits[i]? = some bits[i] := List.getElem?_eq_getElem hib
    have hzip : (positions.zip bits)[i]? = some (positions[i], bits[i]) :=
      List.getElem?_zip_eq_some.mpr ⟨hp, hb⟩
    have hmem : (positions[i], bits[i]) ∈ positions.zip bits := List.getElem?_mem hzip
    have hmap : ((positions.zip bits).map Prod.fst).Nodup := by
      rw [List.map_fst_zip positions bits (by omega)]
      exact hnd
    have hout : out[positions[i]]? =
        some (writeBit (flat.getD positions[i] 0) lsb bits[i]) :=
      embedBits_getElem?_of_mem lsb (positions.zip bits) flat out _ _ h hmap hmem
    rw [hp, hb]
    simp only [Option.map_some']
    congr 1
    rw [getD_of_getElem?_some hout, writeBit_and_one _ _ _ hl,
      ite_bit_eq _ (hbits _ (List.getElem?_mem hb))]
  · rw [List.getElem?_eq_none (l := positions) (by omega),
      List.getElem?_eq_none (l := bits) (by omega)]
    rfl

/-- Reading back any front segment of the sample list is reading the bit values
at the corresponding range of positions. -/
theorem take_map_eq_range_map (l : List Nat) (n : Nat) (f : Nat → Nat)
    (h : n ≤ l.length) :
    (l.take n).map f = (List.range n).map (fun p => f (l.getD p 0)) := by
  apply List.ext_getElem?
  intro i
  rw [List.getElem?_map, List.getElem?_map]
  by_cases hi : i < n
  · rw [List.getElem?_take, if_pos hi, List.getElem?_range hi,
      List.getElem?_eq_getElem (show i < l.length by omega)]
    simp [List.getD_eq_getElem?_getD,
      List.getElem?_eq_getElem (show i < l.length by omega)]
  · rw [List.getElem?_eq_none (l := l.take n) (by simp [List.length_take]; omega),
      List.getElem?_eq_none (l := List.range n) (by simpa using hi)]
    rfl

theorem expure_eq_ok {ε α : Type} (a : α) : (pure a : Except ε α) = .ok a := rfl

/-- Master round-trip lemma: when the payload fits one bit per sample,
extraction inverts embedding exactly. -/
theorem embed_extract_roundtrip (audio C salt nonce : List Nat) (lsb : Nat) (sc : Bool)
    (hs : salt.length = 16) (hn : nonce.length = 12)
    (hsb : ∀ x ∈ salt, x < 256) (hnb : ∀ x ∈ nonce, x < 256)
    (hCb : ∀ x ∈ C, x < 256)
    (hlsb : lsb = 1 ∨ lsb = 2)
    (hfit : (42 + C.length) * 8 ≤ audio.length)
    (hC32 : C.length < 4294967296) :
    ∃ out, embed_message audio C salt nonce lsb sc = .ok out ∧
      extract_message out = .ok (C, salt, nonce) := by
  have hl1 : 1 ≤ lsb := by rcases hlsb with rfl | rfl <;> omega
  set hdr := headerBase salt nonce C.length lsb sc
    ++ packBE4 (calculate_crc32 (headerBase salt nonce C.length lsb sc)) with hdr_def
  have hch : create_header salt nonce C.length lsb sc = .ok hdr := by
    unfold create_header
    rw [if_pos hC32]
  have hdrlen : hdr.length = 42 := by
    simp [hdr_def, headerBase_length, packBE4]
  have hdrbytes : ∀ x ∈ hdr, x < 256 := by
    intro x hx
    rcases List.mem_append.mp hx with h | h
    · exact headerBase_mem_lt salt nonce C.length lsb sc hsb hnb x h
    · exact packBE4_mem_lt _ x h
  have hblen336 : (bytes_to_bits hdr).length = 336 := by
    rw [length_bytes_to_bits, hdrlen]
  have hdblen : (bytes_to_bits C).length = 8 * C.length := length_bytes_to_bits C
  have hsplit : bytes_to_bits (hdr ++ C) = bytes_to_bits hdr ++ bytes_to_bits C :=
    bytes_to_bits_append _ _
  have htake : (bytes_to_bits hdr ++ bytes_to_bits C).take 336 = bytes_to_bits hdr :=
    List.take_left' hblen336
  have hdrop : (bytes_to_bits hdr ++ bytes_to_bits C).drop 336 = bytes_to_bits C :=
    List.drop_left' hblen336
  have h336le : 336 ≤ audio.length := by omega
  -- phase 1: sequential header write
  obtain ⟨flat1, h1⟩ := embedBits_ok_of_forall_lt lsb
    ((List.range (bytes_to_bits hdr).length).zip (bytes_to_bits hdr)) audio
    (by
      intro p hp
      have := List.of_mem_zip hp
      have hmem := List.mem_range.mp this.1
      omega)
  have hlen1 : flat1.length = audio.length := embedBits_ok_length _ _ _ _ h1
  -- the bits written are 0 or 1
  have hdrbits01 : ∀ b ∈ bytes_to_bits hdr, b ≤ 1 := mem_bytes_to_bits_le_one hdr
  have hCbits01 : ∀ b ∈ bytes_to_bits C, b ≤ 1 := mem_bytes_to_bits_le_one C
  have hcapacity : ¬((42 + C.length) * 8 > audio.length * lsb) := by
    push_neg
    calc (42 + C.length) * 8 ≤ audio.length := hfit
      _ ≤ audio.length * lsb := Nat.le_mul_of_pos_right _ (by omega)
  -- a common continuation covering both branches, abstracted over the
  -- payload positions
  have hmain : ∀ pos2 : List Nat, pos2.Nodup → pos2.length = (bytes_to_bits C).length →
      (∀ p ∈ pos2, 336 ≤ p ∧ p < audio.length) →
      ∀ flat2, embedBits lsb flat1 (pos2.zip (bytes_to_bits C)) = .ok flat2 →
        ((flat2.take 336).map (fun s => s &&& 1) = bytes_to_bits hdr ∧
          flat2.length = audio.length ∧
          readBits flat2 pos2 = .ok (bytes_to_bits C)) := by
    intro pos2 hpos2nd hpos2len hpos2b flat2 h2
    have hlen2 : flat2.length = audio.length := by
      rw [embedBits_ok_length _ _ _ _ h2, hlen1]
    have htake2 : flat2.take 336 = flat1.take 336 := by
      apply List.ext_getElem?
      intro i
      rw [List.getElem?_take, List.getElem?_take]
      by_cases hi : i < 336
      · rw [if_pos hi, if_pos hi]
        exact embedBits_getElem?_of_not_mem lsb _ flat1 flat2 i h2
          (fun p hp => by
            have := (hpos2b p.1 (List.of_mem_zip hp).1).1
            omega)
      · rw [if_neg hi, if_neg hi]
    have hread1 : (List.range (bytes_to_bits hdr).length).map
        (fun p => flat1.getD p 0 &&& 1) = bytes_to_bits hdr :=
      embedBits_read lsb hl1 audio flat1 _ _ h1 (List.nodup_range _) (by simp) hdrbits01
    have hheadread : (flat2.take 336).map (fun s => s &&& 1) = bytes_to_bits hdr := by
      rw [htake2, take_map_eq_range_map flat1 336 _ (by omega), ← hblen336]
      exact hread1
    have hread2 : pos2.map (fun p => flat2.getD p 0 &&& 1) = bytes_to_bits C :=
      embedBits_read lsb hl1 flat1 flat2 pos2 _ h2 hpos2nd hpos2len hCbits01
    have hreadok : readBits flat2 pos2 = .ok (bytes_to_bits C) := by
      rw [readBits_ok flat2 pos2 (fun q hq => by
        have := (hpos2b q hq).2
        omega), hread2]
    exact ⟨hheadread, hlen2, hreadok⟩
  have hparse_shared : ∀ flat2 : List Nat,
      (flat2.take 336).map (fun s => s &&& 1) = bytes_to_bits hdr →
      parse_header (bits_to_bytes ((flat2.take 336).map (fun s => s &&& 1))) =
        .ok ⟨1, lsb, sc, salt, nonce, C.length⟩ := by
    intro flat2 hh
    rw [hh, bits_to_bytes_bytes_to_bits hdr hdrbytes, hdr_def]
    exact parse_header_headerBase salt nonce C.length lsb sc hs hn hsb hnb hC32 hlsb
  have hmul : C.length * 8 = (bytes_to_bits C).length := by rw [hdblen]; ring
  -- case split on scatter
  cases sc with
  | false =>
    set pos2 := (List.range (bytes_to_bits C).length).map (fun i => 336 + i)
      with pos2_def
    have hpos2nd : pos2.Nodup := by
      exact (List.nodup_range _).map (fun a b hab => by simpa using hab)
    have hpos2len : pos2.length = (bytes_to_bits C).length := by simp [pos2_def]
    have hpos2b : ∀ p ∈ pos2, 336 ≤ p ∧ p < audio.length := by
      intro p hp
      simp only [pos2_def, List.mem_map, List.mem_range] at hp
      obtain ⟨i, hi, rfl⟩ := hp
      omega
    obtain ⟨flat2, h2⟩ := embedBits_ok_of_forall_lt lsb (pos2.zip (bytes_to_bits C)) flat1
      (by
        intro p hp
        have := (hpos2b p.1 (List.of_mem_zip hp).1).2
        omega)
    obtain ⟨hheadread, hlen2, hreadok⟩ := hmain pos2 hpos2nd hpos2len hpos2b flat2 h2
    have hemb : embed_message audio C salt nonce lsb false = .ok flat2 := by
      unfold embed_message
      rw [hch, exbind_ok]
      simp only [hsplit, List.length_append, hdrlen]
      rw [if_neg hcapacity]
      simp only [show header_size * 8 = 336 from rfl, htake, hdrop]
      rw [h1, exbind_ok]
      simp only [Bool.false_eq_true, if_false]
      exact h2
    refine ⟨flat2, hemb, ?_⟩
    unfold extract_message
    rw [if_neg (by simp only [header_size]; omega)]
    simp only [show header_size * 8 = 336 from rfl]
    rw [hparse_shared flat2 hheadread, exbind_ok]
    simp only [Bool.false_eq_true, if_false]
    rw [hmul, ← pos2_def, hreadok, exbind_ok,
      bits_to_bytes_bytes_to_bits C hCb, expure_eq_ok]
  | true =>
    have hcount : (bytes_to_bits C).length ≤ audio.length - 336 := by omega
    obtain ⟨hgen, hgenlen, hgennd, hgenlt⟩ :=
      generate_scatter_indices_spec ((bytes_to_bits C).length) (audio.length - 336)
        salt hcount
    set idxs := (pyShuffle (pyRandomSeed (scatterSeed salt))
      (List.range (audio.length - 336))).1.take ((bytes_to_bits C).length) with idxs_def
    set pos2 := idxs.map (fun ix => 336 + ix) with pos2_def
    have hpos2nd : pos2.Nodup := by
      exact hgennd.map (fun a b hab => by simpa using hab)
    have hpos2len : pos2.length = (bytes_to_bits C).length := by
      simp [pos2_def, hgenlen]
    have hpos2b : ∀ p ∈ pos2, 336 ≤ p ∧ p < audio.length := by
      intro p hp
      simp only [pos2_def, List.mem_map] at hp
      obtain ⟨ix, hix, rfl⟩ := hp
      have := hgenlt ix hix
      omega
    obtain ⟨flat2, h2⟩ := embedBits_ok_of_forall_lt lsb (pos2.zip (bytes_to_bits C)) flat1
      (by
        intro p hp
        have := (hpos2b p.1 (List.of_mem_zip hp).1).2
        omega)
    obtain ⟨hheadread, hlen2, hreadok⟩ := hmain pos2 hpos2nd hpos2len hpos2b flat2 h2
    have hemb : embed_message audio C salt nonce lsb true = .ok flat2 := by
      unfold embed_message
      rw [hch, exbind_ok]
      simp only [hsplit, List.length_append, hdrlen]
      rw [if_neg hcapacity]
      simp only [show header_size * 8 = 336 from rfl, htake, hdrop]
      rw [h1, exbind_ok]
      simp only [if_true]
      rw [hgen, exbind_ok, ← pos2_def]
      exact h2
    refine ⟨flat2, hemb, ?_⟩
    unfold extract_message
    rw [if_neg (by simp only [header_size]; omega)]
    simp only [show header_size * 8 = 336 from rfl]
    rw [hparse_shared flat2 hheadread, exbind_ok]
    simp only [if_true]
    rw [hmul, hlen2, hgen, exbind_ok, ← pos2_def, hreadok, exbind_ok,
      bits_to_bytes_bytes_to_bits C hCb, expure_eq_ok]

/-! ## Crypto layer lemmas -/

theorem foldl_length_inv {α : Type} (f : List Nat → α → List Nat)
    (hf : ∀ st a, (f st a).length = st.length) (l : List α) :
    ∀ st, (l.foldl f st).length = st.length := by
  induction l with
  | nil => intro st; rfl
  | cons a t ih => intro st; rw [List.foldl_cons, ih, hf]

theorem shaRound_length (st : List Nat) (k w : Nat) :
    (shaRound st k w).length = st.length := by
  unfold shaRound
  split
  · simp
  · rfl

theorem shaBlock_length (h b : List Nat) : (shaBlock h b).length = h.length := by
  unfold shaBlock
  rw [List.length_zipWith,
    foldl_length_inv _ (fun st i => shaRound_length st _ _) (List.range 64) h]
  omega

theorem flatMap_packBE4_length (l : List Nat) : (l.flatMap packBE4).length = 4 * l.length := by
  induction l with
  | nil => rfl
  | cons a t ih => simp [ih, packBE4]; ring

theorem sha256_length (m : List Nat) : (sha256 m).length = 32 := by
  unfold sha256
  rw [flatMap_packBE4_length,
    foldl_length_inv _ (fun st i => shaBlock_length st _) _ shaH0]
  rfl

theorem sha256_getD0_lt (m : List Nat) : (sha256 m).getD 0 0 < 256 := by
  cases hsm : sha256 m with
  | nil => simp [List.getD]
  | cons a t =>
    have ha : a ∈ sha256 m := by rw [hsm]; simp
    simpa [List.getD] using sha256_mem_lt m a ha

theorem keystream_length (key nonce : List Nat) (n : Nat) :
    (keystream key nonce n).length = n := by
  simp [keystream]

theorem keystream_mem_lt (key nonce : List Nat) (n : Nat) :
    ∀ x ∈ keystream key nonce n, x < 256 := by
  intro x hx
  simp only [keystream, List.mem_map, List.mem_range] at hx
  obtain ⟨i, _, rfl⟩ := hx
  exact sha256_getD0_lt _

theorem zipWith_xor_lt (a : List Nat) :
    ∀ b, (∀ x ∈ a, x < 256) → (∀ x ∈ b, x < 256) →
      ∀ x ∈ List.zipWith Nat.xor a b, x < 256 := by
  induction a with
  | nil => intro b _ _ x hx; simp at hx
  | cons a0 t ih =>
    intro b ha hb x hx
    cases b with
    | nil => simp at hx
    | cons b0 u =>
      simp only [List.zipWith_cons_cons, List.mem_cons] at hx
      rcases hx with rfl | hx
      · have h1 : a0 < 2 ^ 8 := by simpa using ha a0 (by simp)
        have h2 : b0 < 2 ^ 8 := by simpa using hb b0 (by simp)
        simpa using Nat.xor_lt_two_pow h1 h2
      · exact ih u (fun y hy => ha y (by simp [hy])) (fun y hy => hb y (by simp [hy])) x hx

theorem zipWith_xor_cancel (a : List Nat) :
    ∀ b, a.length ≤ b.length →
      List.zipWith Nat.xor (List.zipWith Nat.xor a b) b = a := by
  induction a with
  | nil => intro b _; simp
  | cons a0 t ih =>
    intro b hab
    cases b with
    | nil => simp at hab
    | cons b0 u =>
      simp only [List.zipWith_cons_cons]
      have hx : Nat.xor (Nat.xor a0 b0) b0 = a0 := Nat.xor_cancel_right b0 a0
      rw [hx, ih u (by simpa using hab)]

theorem encrypt_message_length (M P s n : List Nat) :
    (encrypt_message M P s n).length = M.length + 16 := by
  simp [encrypt_message, aesgcm_encrypt, List.length_zipWith, keystream_length,
    List.length_take, sha256_length]

theorem encrypt_message_mem_lt (M P s n : List Nat) (hM : ∀ x ∈ M, x < 256) :
    ∀ x ∈ encrypt_message M P s n, x < 256 := by
  intro x hx
  simp only [encrypt_message, aesgcm_encrypt] at hx
  rcases List.mem_append.mp hx with h | h
  · exact zipWith_xor_lt M _ hM (keystream_mem_lt _ _ _) x h
  · exact sha256_mem_lt _ x (List.mem_of_mem_take h)

/-- Decryption inverts encryption bit for bit, with the same password,
salt and nonce. -/
theorem decrypt_encrypt (M P s n : List Nat) :
    decrypt_message (encrypt_message M P s n) P s n = .ok M := by
  unfold decrypt_message encrypt_message aesgcm_decrypt aesgcm_encrypt
  set key := derive_key P s with key_def
  set body := List.zipWith Nat.xor M (keystream key n M.length) with body_def
  set tag := (sha256 (key ++ n ++ body)).take 16 with tag_def
  have hbl : body.length = M.length := by
    simp [body_def, List.length_zipWith, keystream_length]
  have htl : tag.length = 16 := by
    simp [tag_def, List.length_take, sha256_length]
  have hctlen : (body ++ tag).length = M.length + 16 := by
    simp [hbl, htl]
  rw [hctlen]
  rw [if_neg (by omega)]
  have hsub : M.length + 16 - 16 = M.length := by omega
  rw [hsub, ← hbl, List.take_left, List.drop_left]
  rw [if_neg (by simp [tag_def])]
  rw [hbl, zipWith_xor_cancel M _ (by rw [keystream_length])]

/-! ## Inversion lemmas for a successful embed call -/

theorem exbind_err {ε α β : Type} (e : ε) (f : α → Except ε β) :
    (Except.error e >>= f : Except ε β) = .error e := rfl

theorem embedBits_ok_forall_lt (l : Nat) (ps : List (Nat × Nat)) :
    ∀ flat out, embedBits l flat ps = .ok out → ∀ p ∈ ps, p.1 < flat.length := by
  induction ps with
  | nil => intro flat out _ p hp; cases hp
  | cons q rest ih =>
    intro flat out h p hp
    obtain ⟨pos, bit⟩ := q
    simp only [embedBits] at h
    split at h
    case isTrue hlt =>
      rcases List.mem_cons.mp hp with rfl | hp2
      · exact hlt
      · have := ih _ _ h p hp2
        simpa using this
    case isFalse => cases h

/-- Everything a successful embed_message call determines about its
execution: header creation succeeded with a 32-bit payload length, the
capacity check passed, the header write phase and payload write phase
each succeeded, and the payload positions are the distinct in-range
positions described by embedTargets. -/
theorem embed_message_inv (audio C salt nonce : List Nat) (lsb : Nat) (sc : Bool)
    (out : List Nat)
    (h : embed_message audio C salt nonce lsb sc = .ok out) :
    C.length < 4294967296 ∧
    (42 + C.length) * 8 ≤ audio.length * lsb ∧
    336 ≤ audio.length ∧
    (42 + C.length) * 8 ≤ audio.length ∧
    ∃ hdr flat1 pos2,
      create_header salt nonce C.length lsb sc = .ok hdr ∧
      hdr.length = 42 ∧
      embedBits lsb audio ((List.range (bytes_to_bits hdr).length).zip (bytes_to_bits hdr))
        = .ok flat1 ∧
      embedBits lsb flat1 (pos2.zip (bytes_to_bits C)) = .ok out ∧
      pos2.Nodup ∧ pos2.length = (bytes_to_bits C).length ∧
      (∀ p ∈ pos2, 336 ≤ p ∧ p < audio.length) ∧
      List.range 336 ++ pos2 = embedTargets audio.length (8 * C.length) salt sc := by
  unfold embed_message at h
  cases hch : create_header salt nonce C.length lsb sc with
  | error e => rw [hch, exbind_err] at h; cases h
  | ok hdr =>
    rw [hch, exbind_ok] at h
    obtain ⟨hpl, hdr_eq⟩ : C.length < 4294967296 ∧
        hdr = headerBase salt nonce C.length lsb sc
          ++ packBE4 (calculate_crc32 (headerBase salt nonce C.length lsb sc)) := by
      unfold create_header at hch
      split at hch
      · exact ⟨by assumption, (Except.ok.inj hch).symm⟩
      · cases hch
    have hdrlen : hdr.length = 42 := by
      rw [hdr_eq]
      simp [headerBase_length, packBE4]
    have hblen336 : (bytes_to_bits hdr).length = 336 := by
      rw [length_bytes_to_bits, hdrlen]
    have hdblen : (bytes_to_bits C).length = 8 * C.length := length_bytes_to_bits C
    have hsplit : bytes_to_bits (hdr ++ C) = bytes_to_bits hdr ++ bytes_to_bits C :=
      bytes_to_bits_append _ _
    have htake : (bytes_to_bits hdr ++ bytes_to_bits C).take 336 = bytes_to_bits hdr :=
      List.take_left' hblen336
    have hdrop : (bytes_to_bits hdr ++ bytes_to_bits C).drop 336 = bytes_to_bits C :=
      List.drop_left' hblen336
    simp only [hsplit, List.length_append, hdrlen,
      show header_size * 8 = 336 from rfl, htake, hdrop] at h
    split at h
    · cases h
    case isFalse hcap =>
      have hcap2 : (42 + C.length) * 8 ≤ audio.length * lsb := by
        push_neg at hcap
        calc (42 + C.length) * 8 = (hdr.length + C.length) * 8 := by rw [hdrlen]
          _ ≤ audio.length * lsb := by omega
      cases h1 : embedBits lsb audio
          ((List.range (bytes_to_bits hdr).length).zip (bytes_to_bits hdr)) with
      | error e =>
        rw [h1, exbind_err] at h
        cases h
      | ok flat1 =>
        rw [h1, exbind_ok] at h
        have hlen1 : flat1.length = audio.length := embedBits_ok_length _ _ _ _ h1
        have h336 : 336 ≤ audio.length := by
          have hpair : ((List.range (bytes_to_bits hdr).length).zip (bytes_to_bits hdr))[335]? =
              some (335, (bytes_to_bits hdr).getD 335 0) := by
            apply List.getElem?_zip_eq_some.mpr
            constructor
            · rw [List.getElem?_range (by omega)]
            · rw [List.getElem?_eq_getElem (by omega)]
              congr 1
              exact (List.getD_eq_getElem _ 0 (by omega)).symm
          have hmem := List.getElem?_mem hpair
          have := embedBits_ok_forall_lt lsb _ audio flat1 h1 _ hmem
          simpa using this
        cases sc with
        | false =>
          simp only [Bool.false_eq_true, if_false] at h
          have hreq : (42 + C.length) * 8 ≤ audio.length := by
            by_cases hC0 : C.length = 0
            · omega
            · have hL : 0 < (bytes_to_bits C).length := by omega
              have hpair : ((List.map (fun i => 336 + i)
                  (List.range (bytes_to_bits C).length)).zip (bytes_to_bits C))[
                    (bytes_to_bits C).length - 1]? =
                  some (336 + ((bytes_to_bits C).length - 1),
                    (bytes_to_bits C).getD ((bytes_to_bits C).length - 1) 0) := by
                apply List.getElem?_zip_eq_some.mpr
                constructor
                · rw [List.getElem?_map, List.getElem?_range (by omega)]
                  rfl
                · rw [List.getElem?_eq_getElem (by omega)]
                  congr 1
                  exact (List.getD_eq_getElem _ 0 (by omega)).symm
              have hb := embedBits_ok_forall_lt lsb _ flat1 out h _ (List.getElem?_mem hpair)
              simp only at hb
              omega
          refine ⟨hpl, hcap2, h336, hreq, hdr, flat1,
            (List.range (bytes_to_bits C).length).map (fun i => 336 + i),
            rfl, hdrlen, h1, ?_, ?_, ?_, ?_, ?_⟩
          · exact h
          · exact (List.nodup_range _).map (fun a b hab => by simpa using hab)
          · simp
          · intro p hp
            simp only [List.mem_map, List.mem_range] at hp
            obtain ⟨i, hi, rfl⟩ := hp
            have hlt := embedBits_ok_forall_lt lsb _ flat1 out h
            refine ⟨by omega, ?_⟩
            have hpair : ((List.map (fun i => 336 + i)
                (List.range (bytes_to_bits C).length)).zip (bytes_to_bits C))[i]? =
                some (336 + i, (bytes_to_bits C).getD i 0) := by
              apply List.getElem?_zip_eq_some.mpr
              constructor
              · rw [List.getElem?_map, List.getElem?_range hi]
                rfl
              · rw [List.getElem?_eq_getElem hi]
                congr 1
                exact (List.getD_eq_getElem _ 0 hi).symm
            have hb := hlt _ (List.getElem?_mem hpair)
            simp only at hb
            omega
          · simp only [embedTargets, show header_size * 8 = 336 from rfl, if_false,
              Bool.false_eq_true, hdblen]
        | true =>
          simp only [if_true] at h
          cases hg : generate_scatter_indices (bytes_to_bits C).length
              (audio.length - 336) salt with
          | error e => rw [hg, exbind_err] at h; cases h
          | ok idxs =>
            rw [hg, exbind_ok] at h
            have hcount : (bytes_to_bits C).length ≤ audio.length - 336 := by
              unfold generate_scatter_indices at hg
              split at hg
              · cases hg
              · omega
            obtain ⟨hgeq, hglen, hgnd, hglt⟩ :=
              generate_scatter_indices_spec ((bytes_to_bits C).length)
                (audio.length - 336) salt hcount
            have hidxs : idxs = (pyShuffle (pyRandomSeed (scatterSeed salt))
                (List.range (audio.length - 336))).1.take ((bytes_to_bits C).length) := by
              rw [hg] at hgeq
              exact Except.ok.inj hgeq
            subst hidxs
            have hreq : (42 + C.length) * 8 ≤ audio.length := by omega
            refine ⟨hpl, hcap2, h336, hreq, hdr, flat1, _, rfl, hdrlen, h1, h, ?_, ?_, ?_, ?_⟩
            · exact hgnd.map (fun a b hab => by simpa using hab)
            · rw [List.length_map, hglen]
            · intro p hp
              simp only [List.mem_map] at hp
              obtain ⟨ix, hix, rfl⟩ := hp
              have := hglt ix hix
              omega
            · simp only [embedTargets, show header_size * 8 = 336 from rfl, if_true, hdblen]

/-! ## Embed success lemma and further bit packer facts -/

/-- Sufficient conditions for a successful embed; no constraints on the
byte values or on the salt and nonce lengths are needed for the write
phases themselves. -/
theorem embed_message_ok (audio C salt nonce : List Nat) (lsb : Nat) (sc : Bool)
    (hl1 : 1 ≤ lsb) (hC32 : C.length < 4294967296)
    (hcap : (42 + C.length) * 8 ≤ audio.length * lsb)
    (hfit : (42 + C.length) * 8 ≤ audio.length) :
    ∃ out, embed_message audio C salt nonce lsb sc = .ok out := by
  set hdr := headerBase salt nonce C.length lsb sc
    ++ packBE4 (calculate_crc32 (headerBase salt nonce C.length lsb sc)) with hdr_def
  have hch : create_header salt nonce C.length lsb sc = .ok hdr := by
    unfold create_header
    rw [if_pos hC32]
  have hdrlen : hdr.length = 42 := by
    simp [hdr_def, headerBase_length, packBE4]
  have hblen336 : (bytes_to_bits hdr).length = 336 := by
    rw [length_bytes_to_bits, hdrlen]
  have hdblen : (bytes_to_bits C).length = 8 * C.length := length_bytes_to_bits C
  have hsplit : bytes_to_bits (hdr ++ C) = bytes_to_bits hdr ++ bytes_to_bits C :=
    bytes_to_bits_append _ _
  have htake : (bytes_to_bits hdr ++ bytes_to_bits C).take 336 = bytes_to_bits hdr :=
    List.take_left' hblen336
  have hdrop : (bytes_to_bits hdr ++ bytes_to_bits C).drop 336 = bytes_to_bits C :=
    List.drop_left' hblen336
  obtain ⟨flat1, h1⟩ := embedBits_ok_of_forall_lt lsb
    ((List.range (bytes_to_bits hdr).length).zip (bytes_to_bits hdr)) audio
    (by
      intro p hp
      have hmem := List.mem_range.mp (List.of_mem_zip hp).1
      omega)
  have hlen1 : flat1.length = audio.length := embedBits_ok_length _ _ _ _ h1
  cases sc with
  | false =>
    obtain ⟨flat2, h2⟩ := embedBits_ok_of_forall_lt lsb
      (((List.range (bytes_to_bits C).length).map (fun ix => 336 + ix)).zip
        (bytes_to_bits C)) flat1
      (by
        intro p hp
        have hm := (List.of_mem_zip hp).1
        simp only [List.mem_map, List.mem_range] at hm
        obtain ⟨i, hi, he⟩ := hm
        omega)
    refine ⟨flat2, ?_⟩
    unfold embed_message
    rw [hch, exbind_ok]
    simp only [hsplit, List.length_append, hdrlen]
    rw [if_neg (by omega)]
    simp only [show header_size * 8 = 336 from rfl, htake, hdrop]
    rw [h1, exbind_ok]
    simp only [Bool.false_eq_true, if_false]
    exact h2
  | true =>
    have hcount : (bytes_to_bits C).length ≤ audio.length - 336 := by omega
    obtain ⟨hgen, hgenlen, hgennd, hgenlt⟩ :=
      generate_scatter_indices_spec ((bytes_to_bits C).length) (audio.length - 336)
        salt hcount
    obtain ⟨flat2, h2⟩ := embedBits_ok_of_forall_lt lsb
      ((((pyShuffle (pyRandomSeed (scatterSeed salt))
          (List.range (audio.length - 336))).1.take ((bytes_to_bits C).length)).map
          (fun ix => 336 + ix)).zip (bytes_to_bits C)) flat1
      (by
        intro p hp
        have hm := (List.of_mem_zip hp).1
        simp only [List.mem_map] at hm
        obtain ⟨ix, hix, he⟩ := hm
        have := hgenlt ix hix
        omega)
    refine ⟨flat2, ?_⟩
    unfold embed_message
    rw [hch, exbind_ok]
    simp only [hsplit, List.length_append, hdrlen]
    rw [if_neg (by omega)]
    simp only [show header_size * 8 = 336 from rfl, htake, hdrop]
    rw [h1, exbind_ok]
    simp only [if_true]
    rw [hgen, exbind_ok]
    exact h2

theorem getD_zero_of_le (l : List Nat) (i : Nat) (h : l.length ≤ i) :
    l.getD i 0 = 0 := by
  rw [List.getD_eq_getElem?_getD, List.getElem?_eq_none h]
  rfl

/-- MSB-first pointwise description of bytes_to_bits: bit j of byte i
lands at output position 8 i + j. -/
theorem bytes_to_bits_getD (b : List Nat) :
    ∀ i, i < b.length → ∀ j, j < 8 →
      (bytes_to_bits b).getD (8 * i + j) 0 = (b.getD i 0 >>> (7 - j)) &&& 1 := by
  induction b with
  | nil => intro i hi; simp at hi
  | cons x t ih =>
    intro i hi j hj
    cases i with
    | zero =>
      rw [bytes_to_bits_cons]
      interval_cases j <;> simp [List.getD]
    | succ i2 =>
      rw [bytes_to_bits_cons]
      have h8 : 8 * (i2 + 1) + j = 8 + (8 * i2 + j) := by ring
      rw [h8]
      have hskip : ∀ (a0 a1 a2 a3 a4 a5 a6 a7 : Nat) (rest : List Nat) (k : Nat),
          (a0 :: a1 :: a2 :: a3 :: a4 :: a5 :: a6 :: a7 :: rest).getD (8 + k) 0 =
            rest.getD k 0 := by
        intro a0 a1 a2 a3 a4 a5 a6 a7 rest k
        rw [show a0 :: a1 :: a2 :: a3 :: a4 :: a5 :: a6 :: a7 :: rest =
          [a0, a1, a2, a3, a4, a5, a6, a7] ++ rest from rfl]
        rw [List.getD_eq_getElem?_getD, List.getD_eq_getElem?_getD,
          List.getElem?_append_right (by simp : ([a0,a1,a2,a3,a4,a5,a6,a7] : List Nat).length ≤ 8 + k)]
        simp
      rw [hskip]
      have ht : t.getD i2 0 = (x :: t).getD (i2 + 1) 0 := by simp [List.getD]
      rw [ih i2 (by simpa using hi) j hj, ht]

/-- Padding behaviour of bits_to_bytes: a bit list whose length is not a
multiple of 8 is converted exactly as its zero-padded extension. -/
theorem bits_to_bytes_pad (bits : List Nat) (h : bits.length % 8 ≠ 0) :
    bits_to_bytes bits = bits_to_bytes (bits ++ List.replicate (8 - bits.length % 8) 0) := by
  unfold bits_to_bytes
  simp only [List.length_append, List.length_replicate]
  rw [show (8 - (bits.length + (8 - bits.length % 8)) % 8) % 8 = 0 from by omega,
    show (8 - bits.length % 8) % 8 = 8 - bits.length % 8 from by omega]
  simp

/-! ## Claim theorems -/

/-- Claim C7: for every totalSamples and lsbBits, the computed capacity in bytes
equals the spec formula max(0, floor(totalSamples * lsbBits / 8) - 42),
and in particular the capacity of 100000 samples at 1 LSB is 12458. -/
theorem C7_capacity_formula (total_samples lsb_bits : Nat) :
    calculate_capacity total_samples lsb_bits = specCapacity total_samples lsb_bits ∧
    calculate_capacity 100000 1 = 12458 := by
  constructor
  · simp [calculate_capacity, specCapacity, header_size, Int.ofNat_tdiv]
  · decide

/-- Claim C8: bytes_to_bits is the MSB-first bit expansion, with length exactly
8 times the byte count and bit j of byte i at position 8 i + j;
bits_to_bytes inverts it on byte input; and for a bit list whose length
is not a multiple of 8, bits_to_bytes right-pads with zero bits before
grouping. -/
theorem C8_bit_packer (b bits : List Nat) (hb : ∀ x ∈ b, x < 256) :
    (bytes_to_bits b).length = 8 * b.length ∧
    (∀ i, i < b.length → ∀ j, j < 8 →
      (bytes_to_bits b).getD (8 * i + j) 0 = (b.getD i 0 >>> (7 - j)) &&& 1) ∧
    bits_to_bytes (bytes_to_bits b) = b ∧
    (bits.length % 8 ≠ 0 →
      bits_to_bytes bits = bits_to_bytes (bits ++ List.replicate (8 - bits.length % 8) 0)) :=
  ⟨length_bytes_to_bits b, bytes_to_bits_getD b, bits_to_bytes_bytes_to_bits b hb,
    bits_to_bytes_pad bits⟩

/-- Witness for C8 at a concrete byte list. -/
theorem C8_bit_packer_witness : bits_to_bytes (bytes_to_bits [171, 1]) = [171, 1] :=
  (C8_bit_packer [171, 1] [1, 1, 0] (by decide)).2.2.1

/-- Claim C9: for a 16-byte salt, 12-byte nonce, payload length below 2 ^ 32 and
LSB count 1 or 2, _create_header produces exactly 42 bytes whose last 4
bytes are the big-endian CRC32 of the first 38, and _parse_header on that
output returns exactly the packed fields. -/
theorem C9_header_roundtrip (salt nonce : List Nat) (pl lsb : Nat) (sc : Bool)
    (hs : salt.length = 16) (hn : nonce.length = 12)
    (hsb : ∀ x ∈ salt, x < 256) (hnb : ∀ x ∈ nonce, x < 256)
    (hpl : pl < 4294967296) (hlsb : lsb = 1 ∨ lsb = 2) :
    ∃ hdr, create_header salt nonce pl lsb sc = .ok hdr ∧ hdr.length = 42 ∧
      hdr.drop 38 = packBE4 (calculate_crc32 (hdr.take 38)) ∧
      parse_header hdr = .ok ⟨1, lsb, sc, salt, nonce, pl⟩ := by
  refine ⟨headerBase salt nonce pl lsb sc
    ++ packBE4 (calculate_crc32 (headerBase salt nonce pl lsb sc)), ?_, ?_, ?_, ?_⟩
  · unfold create_header
    rw [if_pos hpl]
  · simp [headerBase_length, packBE4]
  · rw [List.drop_left' (headerBase_length salt nonce pl lsb sc),
      List.take_left' (headerBase_length salt nonce pl lsb sc)]
  · exact parse_header_headerBase salt nonce pl lsb sc hs hn hsb hnb hpl hlsb

/-- Witness for C9 at concrete fields. -/
theorem C9_header_roundtrip_witness :
    ∃ hdr, create_header (List.replicate 16 5) (List.replicate 12 7) 1000 2 true = .ok hdr ∧
      hdr.length = 42 ∧
      hdr.drop 38 = packBE4 (calculate_crc32 (hdr.take 38)) ∧
      parse_header hdr =
        .ok ⟨1, 2, true, List.replicate 16 5, List.replicate 12 7, 1000⟩ :=
  C9_header_roundtrip (List.replicate 16 5) (List.replicate 12 7) 1000 2 true
    (by decide) (by decide) (by decide) (by decide) (by decide) (Or.inr rfl)

set_option maxRecDepth 100000 in
/-- Claim C3: evaluation of the flags guard on concrete headers.  A CRC-valid
header whose flags decode to an LSB count of 3 is accepted by
_parse_header (the guard lsb < 1 or lsb > 3 can never reject 3, since
flags & 0x03 is at most 3), while a decoded LSB count of 0 is rejected as
the claim states. -/
theorem C3_lsb_guard :
    ((create_header (List.replicate 16 0) (List.replicate 12 0) 0 3 false).bind parse_header =
      .ok ⟨1, 3, false, List.replicate 16 0, List.replicate 12 0, 0⟩) ∧
    ((create_header (List.replicate 16 0) (List.replicate 12 0) 0 0 false).bind parse_header =
      .error (.invalidLsbBits 0)) := by
  constructor
  · decide
  · decide

/-- Claim C5: for every 42-byte header candidate, the CRC32 over the first 38
bytes is checked first: any disagreement of the trailing 4 bytes is
rejected as a checksum error regardless of magic, version or flags; with
the CRC valid, a wrong magic and then a wrong version are rejected in
that order; and extraction propagates a header error before reading any
payload bits, so the decode path returns it before any cryptographic
operation. -/
theorem C5_header_validation_order :
    (∀ h : List Nat, h.length = 42 →
      bytesToNatBE (h.drop 38) ≠ calculate_crc32 (h.take 38) →
      parse_header h = .error .crcMismatch) ∧
    (∀ h : List Nat, h.length = 42 →
      bytesToNatBE (h.drop 38) = calculate_crc32 (h.take 38) →
      h.take 4 ≠ magic_bytes →
      parse_header h = .error .invalidMagic) ∧
    (∀ h : List Nat, h.length = 42 →
      bytesToNatBE (h.drop 38) = calculate_crc32 (h.take 38) →
      h.take 4 = magic_bytes → h.getD 4 0 ≠ 1 →
      parse_header h = .error (.unsupportedVersion (h.getD 4 0))) ∧
    (∀ audio : List Nat, ∀ e : StegoErr, 336 ≤ audio.length →
      parse_header (bits_to_bytes ((audio.take 336).map (fun s => s &&& 1))) = .error e →
      extract_message audio = .error e ∧
      ∀ password : List Nat, decodeMessage audio password = .error e) := by
  have hfields : ∀ h : List Nat, h.length = 42 →
      ((h.take 38).take 4 = h.take 4 ∧ (h.take 38).length = 38 ∧
        (h.take 38).getD 4 0 = h.getD 4 0) := by
    intro h hlen
    refine ⟨?_, ?_, ?_⟩
    · rw [List.take_take]
      norm_num
    · simp [List.length_take, hlen]
    · rw [List.getD_eq_getElem?_getD, List.getD_eq_getElem?_getD,
        List.getElem?_take, if_pos (by omega)]
  refine ⟨?_, ?_, ?_, ?_⟩
  · intro h hlen hcrc
    unfold parse_header
    rw [hlen]
    rw [if_neg (by simp [header_size])]
    rw [show (42 : Nat) - 4 = 38 from rfl]
    rw [if_pos (Ne.symm hcrc)]
  · intro h hlen hcrc hmagic
    unfold parse_header
    rw [hlen]
    rw [if_neg (by simp [header_size])]
    rw [show (42 : Nat) - 4 = 38 from rfl]
    rw [if_neg (by rw [hcrc]; exact fun he => he rfl)]
    rw [if_neg (by rw [(hfields h hlen).2.1]; omega)]
    rw [if_pos (by rw [(hfields h hlen).1]; exact hmagic)]
  · intro h hlen hcrc hmagic hver
    unfold parse_header
    rw [hlen]
    rw [if_neg (by simp [header_size])]
    rw [show (42 : Nat) - 4 = 38 from rfl]
    rw [if_neg (by rw [hcrc]; exact fun he => he rfl)]
    rw [if_neg (by rw [(hfields h hlen).2.1]; omega)]
    rw [if_neg (by rw [(hfields h hlen).1]; simpa using hmagic)]
    rw [(hfields h hlen).2.2]
    rw [if_pos (by simpa [headerVersion] using hver)]
  · intro audio e hlen hparse
    have hext : extract_message audio = .error e := by
      unfold extract_message
      rw [if_neg (by simp only [header_size]; omega)]
      simp only [show header_size * 8 = 336 from rfl]
      rw [hparse, exbind_err]
    refine ⟨hext, ?_⟩
    intro password
    unfold decodeMessage
    rw [hext, exbind_err]

set_option maxRecDepth 400000 in
/-- Witness for C5: the all-zero 42-byte buffer has a trailing CRC field
of 0 which disagrees with the CRC32 of 38 zero bytes, so parsing rejects
it with the checksum error, and extraction of an all-zero sample buffer
propagates that error. -/
theorem C5_header_validation_order_witness :
    parse_header (List.replicate 42 0) = .error .crcMismatch ∧
    extract_message (List.replicate 400 0) = .error .crcMismatch :=
  ⟨C5_header_validation_order.1 (List.replicate 42 0) (by decide) (by decide),
    (C5_header_validation_order.2.2.2 (List.replicate 400 0) .crcMismatch (by decide)
      (by decide)).1⟩

/-- Claim C6: the scatter generator fails with the insufficient-samples error
exactly when count exceeds totalAvailable; otherwise it returns the first
count entries of the shuffle of the identity permutation of
[0, totalAvailable) under the MT19937 generator seeded with the first 4
bytes (big-endian) of SHA-256(salt ++ "scatter"), which is a list of
count distinct indices below totalAvailable; and the result depends on
the other inputs only through that salt-derived seed (in particular it
involves no password). -/
theorem C6_scatter_generator (count total : Nat) (salt : List Nat) :
    (count > total →
      generate_scatter_indices count total salt = .error .notEnoughSamplesForScatter) ∧
    (count ≤ total →
      generate_scatter_indices count total salt =
        .ok ((pyShuffle (pyRandomSeed (scatterSeed salt)) (List.range total)).1.take count) ∧
      ∃ idxs, generate_scatter_indices count total salt = .ok idxs ∧
        idxs.length = count ∧ idxs.Nodup ∧ (∀ ix ∈ idxs, ix < total)) ∧
    (∀ salt2 : List Nat, scatterSeed salt2 = scatterSeed salt →
      generate_scatter_indices count total salt2 =
        generate_scatter_indices count total salt) := by
  refine ⟨?_, ?_, ?_⟩
  · intro hgt
    unfold generate_scatter_indices
    rw [if_pos hgt]
  · intro hle
    obtain ⟨heq, hlen, hnd, hlt⟩ := generate_scatter_indices_spec count total salt hle
    exact ⟨heq, _, heq, hlen, hnd, hlt⟩
  · intro salt2 hseed
    unfold generate_scatter_indices
    rw [hseed]

/-- Witness for C6 at concrete arguments. -/
theorem C6_scatter_generator_witness :
    ∃ idxs, generate_scatter_indices 2 3 [7] = .ok idxs ∧
      idxs.length = 2 ∧ idxs.Nodup ∧ (∀ ix ∈ idxs, ix < 3) :=
  ((C6_scatter_generator 2 3 [7]).2.1 (by omega)).2

/-- Claim C10: in the heap view, embed_message never writes through the caller
reference: it allocates a fresh cell for the flattened copy, performs all
writes there, and returns the fresh reference, so every pre-existing cell
(the argument buffer included) is unchanged and the result is a new
array. -/
theorem C10_embed_nonmutating (store : List (List Nat)) (ref : Nat)
    (C salt nonce : List Nat) (lsb : Nat) (sc : Bool)
    (h : (embed_message (store.getD ref []) C salt nonce lsb sc).isOk = true) :
    ∃ modified,
      embed_message_heap store ref C salt nonce lsb sc =
        .ok (store ++ [modified], store.length) ∧
      (∀ i, i < store.length → (store ++ [modified])[i]? = store[i]?) ∧
      (ref < store.length → store.length ≠ ref) := by
  cases hemb : embed_message (store.getD ref []) C salt nonce lsb sc with
  | error e => rw [hemb] at h; cases h
  | ok modified =>
    refine ⟨modified, ?_, ?_, ?_⟩
    · unfold embed_message_heap
      rw [hemb]
    · intro i hi
      rw [List.getElem?_append_left hi]
    · omega

set_option maxRecDepth 400000 in
/-- Witness for C10 at a concrete store: one 336-sample zero buffer and
an empty ciphertext. -/
theorem C10_embed_nonmutating_witness :
    ∃ modified,
      embed_message_heap [List.replicate 336 0] 0 [] (List.replicate 16 0)
          (List.replicate 12 0) 1 false =
        .ok ([List.replicate 336 0] ++ [modified], 1) ∧
      (∀ i, i < 1 → ([List.replicate 336 0] ++ [modified])[i]? =
        [List.replicate 336 0][i]?) ∧
      ((0 : Nat) < 1 → (1 : Nat) ≠ 0) := by
  have := C10_embed_nonmutating [List.replicate 336 0] 0 [] (List.replicate 16 0)
    (List.replicate 12 0) 1 false (by decide)
  simpa using this

set_option maxRecDepth 400000 in
/-- Counterexample to claim C2 as stated: with lsbBits = 2, a 9-byte ciphertext
in a 400-sample buffer satisfies requiredBits = 408 <= availableBits =
800, yet embed_message fails, because writes place one bit per sample and
run past the buffer at index 400. -/
theorem C2_capacity_boundary_counterexample :
    (42 + 9) * 8 ≤ 400 * 2 ∧
    embed_message (List.replicate 400 0) (List.replicate 9 0) (List.replicate 16 0)
      (List.replicate 12 0) 2 false = .error (.indexOutOfBounds 400) := by
  constructor
  · decide
  · decide

/-- Claim C2 as amended: with len(C) < 2 ^ 32, embed_message fails with the
insufficient-capacity error reporting requiredBits and availableBits
whenever requiredBits > availableBits; it succeeds iff requiredBits <=
availableBits and additionally requiredBits <= totalSamples; for
lsbBits = 1 the additional condition coincides with the capacity check,
so the boundary is exactly as the claim states. -/
theorem C2_capacity_boundary (audio C salt nonce : List Nat) (lsb : Nat) (sc : Bool)
    (hlsb : lsb = 1 ∨ lsb = 2) (hC32 : C.length < 4294967296) :
    ((42 + C.length) * 8 > audio.length * lsb →
      embed_message audio C salt nonce lsb sc =
        .error (.insufficientCapacity ((42 + C.length) * 8) (audio.length * lsb))) ∧
    ((42 + C.length) * 8 ≤ audio.length * lsb → (42 + C.length) * 8 ≤ audio.length →
      ∃ out, embed_message audio C salt nonce lsb sc = .ok out) ∧
    (lsb = 1 → (42 + C.length) * 8 ≤ audio.length →
      ∃ out, embed_message audio C salt nonce lsb sc = .ok out) ∧
    ((∃ out, embed_message audio C salt nonce lsb sc = .ok out) →
      (42 + C.length) * 8 ≤ audio.length * lsb ∧ (42 + C.length) * 8 ≤ audio.length) := by
  have hl1 : 1 ≤ lsb := by rcases hlsb with rfl | rfl <;> omega
  refine ⟨?_, ?_, ?_, ?_⟩
  · intro hover
    unfold embed_message
    have hch : create_header salt nonce C.length lsb sc =
        .ok (headerBase salt nonce C.length lsb sc
          ++ packBE4 (calculate_crc32 (headerBase salt nonce C.length lsb sc))) := by
      unfold create_header
      rw [if_pos hC32]
    rw [hch, exbind_ok]
    have hdrlen : (headerBase salt nonce C.length lsb sc
        ++ packBE4 (calculate_crc32 (headerBase salt nonce C.length lsb sc))).length = 42 := by
      simp [headerBase_length, packBE4]
    simp only [List.length_append, hdrlen]
    rw [if_pos (by omega)]
    rfl
  · intro hcap hfit
    exact embed_message_ok audio C salt nonce lsb sc hl1 hC32 hcap hfit
  · rintro rfl hfit
    exact embed_message_ok audio C salt nonce 1 sc (by omega) hC32 (by omega) hfit
  · rintro ⟨out, hout⟩
    obtain ⟨_, hcap, _, hreq, _⟩ := embed_message_inv audio C salt nonce lsb sc out hout
    exact ⟨hcap, hreq⟩

set_option maxRecDepth 400000 in
/-- Witness for C2: a 17-byte payload in 100 samples at 1 LSB fails with
the capacity error reporting 472 against 100, while a 16-byte payload in
464 samples at 1 LSB sits exactly at capacity and succeeds. -/
theorem C2_capacity_boundary_witness :
    embed_message (List.replicate 100 0) (List.replicate 17 0) (List.replicate 16 0)
      (List.replicate 12 0) 1 false = .error (.insufficientCapacity 472 100) ∧
    ∃ out, embed_message (List.replicate 464 0) (List.replicate 16 0) (List.replicate 16 0)
      (List.replicate 12 0) 1 false = .ok out := by
  constructor
  · have h := (C2_capacity_boundary (List.replicate 100 0) (List.replicate 17 0)
      (List.replicate 16 0) (List.replicate 12 0) 1 false (Or.inl rfl) (by decide)).1
      (by decide)
    simpa using h
  · exact (C2_capacity_boundary (List.replicate 464 0) (List.replicate 16 0)
      (List.replicate 16 0) (List.replicate 12 0) 1 false (Or.inl rfl) (by decide)).2.1
      (by decide) (by decide)

set_option maxRecDepth 400000 in
/-- Counterexample to claim C1 as stated: at lsbBits = 2 and scatter on, a
9-byte ciphertext is within the reported capacity of a 400-sample buffer
(capacity 58 bytes), yet the encode step itself fails, so no encoded
buffer exists to decode. -/
theorem C1_roundtrip_counterexample :
    calculate_capacity 400 2 = 58 ∧
    ¬ ∃ out, embed_message (List.replicate 400 0) (List.replicate 9 0) (List.replicate 16 0)
        (List.replicate 12 0) 2 true = .ok out ∧
      extract_message out =
        .ok (List.replicate 9 0, List.replicate 16 0, List.replicate 12 0) := by
  refine ⟨by decide, ?_⟩
  rintro ⟨out, hout, _⟩
  have he : embed_message (List.replicate 400 0) (List.replicate 9 0) (List.replicate 16 0)
      (List.replicate 12 0) 2 true = .error .notEnoughSamplesForScatter := by decide
  rw [he] at hout
  cases hout

/-- Claim C1 as amended: with the additional conditions (42 + len) * 8 <=
totalSamples and len < 2 ^ 32 on each payload (for lsbBits = 1 these are
exactly the reported-capacity bound of the claim), the round trip holds:
at the stego layer, extraction after embedding returns exactly
(C, salt, nonce); the modelled AEAD layer satisfies
decrypt(encrypt(M)) = M under the same password, salt and nonce; and the
composed encode/decode path returns the original message bytes. -/
theorem C1_roundtrip (audio C M P salt nonce : List Nat) (lsb : Nat) (sc : Bool)
    (hs : salt.length = 16) (hn : nonce.length = 12)
    (hsb : ∀ x ∈ salt, x < 256) (hnb : ∀ x ∈ nonce, x < 256)
    (hCb : ∀ x ∈ C, x < 256) (hMb : ∀ x ∈ M, x < 256)
    (hlsb : lsb = 1 ∨ lsb = 2)
    (hfitC : (42 + C.length) * 8 ≤ audio.length) (hC32 : C.length < 4294967296)
    (hfitM : (42 + (M.length + 16)) * 8 ≤ audio.length)
    (hM32 : M.length + 16 < 4294967296) :
    (∃ out, embed_message audio C salt nonce lsb sc = .ok out ∧
      extract_message out = .ok (C, salt, nonce)) ∧
    decrypt_message (encrypt_message M P salt nonce) P salt nonce = .ok M ∧
    (∃ out, encodeMessage audio M P salt nonce lsb sc = .ok out ∧
      decodeMessage out P = .ok M) := by
  refine ⟨embed_extract_roundtrip audio C salt nonce lsb sc hs hn hsb hnb hCb hlsb
    hfitC hC32, decrypt_encrypt M P salt nonce, ?_⟩
  have hCEb := encrypt_message_mem_lt M P salt nonce hMb
  have hCElen := encrypt_message_length M P salt nonce
  obtain ⟨out, ho, he⟩ := embed_extract_roundtrip audio
    (encrypt_message M P salt nonce) salt nonce lsb sc hs hn hsb hnb hCEb hlsb
    (by rw [hCElen]; exact hfitM) (by rw [hCElen]; exact hM32)
  refine ⟨out, ho, ?_⟩
  unfold decodeMessage
  rw [he, exbind_ok]
  exact decrypt_encrypt M P salt nonce

set_option maxRecDepth 400000 in
/-- Witness for C1 at the empty message: a 16-byte ciphertext in 464
samples sits exactly at capacity for 1 LSB and round-trips. -/
theorem C1_roundtrip_witness :
    ∃ out, encodeMessage (List.replicate 464 0) [] [] (List.replicate 16 0)
        (List.replicate 12 0) 1 false = .ok out ∧
      decodeMessage out [] = .ok [] :=
  (C1_roundtrip (List.replicate 464 0) (List.replicate 16 0) [] [] (List.replicate 16 0)
    (List.replicate 12 0) 1 false (by decide) (by decide) (by decide) (by decide)
    (by decide) (by decide) (Or.inl rfl) (by decide) (by decide) (by decide)
    (by decide)).2.2

set_option maxRecDepth 400000 in
/-- Counterexample to claim C4 as stated: with lsbBits = 2 the write clears bit
1 as well.  Sample 0 holds the value 2 (bit 1 set); the first header bit
is 0, and after embedding the sample is 0, so a bit other than bit 0 was
overwritten. -/
theorem C4_frame_counterexample :
    (embed_message (2 :: List.replicate 335 0) [] (List.replicate 16 0)
      (List.replicate 12 0) 2 false).map (fun l => l.getD 0 0) = .ok 0 ∧
    (2 : Nat) >>> 1 ≠ (0 : Nat) >>> 1 := by
  constructor
  · decide
  · decide

/-- Claim C4 as amended: a successful embed returns a buffer of identical
length; the 336 header bits are written sequentially into the first 336
positions regardless of the scatter flag; every write clears the
lsb_bits low-order bits of its target sample and sets bit 0 to the data
bit, so all bits from position lsb_bits upward are preserved (for
lsbBits = 1 exactly bit 0 is touched, while for lsbBits = 2 bit 1 is
cleared rather than preserved); and every sample not targeted by a write
is unchanged. -/
theorem C4_frame (audio C salt nonce : List Nat) (lsb : Nat) (sc : Bool) (out : List Nat)
    (hlsb : lsb = 1 ∨ lsb = 2)
    (h : embed_message audio C salt nonce lsb sc = .ok out) :
    out.length = audio.length ∧
    (∃ hdr, create_header salt nonce C.length lsb sc = .ok hdr ∧
      ∀ i, i < 336 →
        out[i]? = some (writeBit (audio.getD i 0) lsb ((bytes_to_bits hdr).getD i 0))) ∧
    (∀ i, out.getD i 0 >>> lsb = audio.getD i 0 >>> lsb) ∧
    (∀ q, q ∉ embedTargets audio.length (8 * C.length) salt sc → out[q]? = audio[q]?) := by
  have hl1 : 1 ≤ lsb := by rcases hlsb with rfl | rfl <;> omega
  obtain ⟨hpl, hcap, h336, hreq, hdr, flat1, pos2, hch, hdrlen, h1, h2, hnd, hlen,
    hbound, htargets⟩ := embed_message_inv audio C salt nonce lsb sc out h
  have hblen336 : (bytes_to_bits hdr).length = 336 := by
    rw [length_bytes_to_bits, hdrlen]
  have hlen1 : flat1.length = audio.length := embedBits_ok_length _ _ _ _ h1
  have hlenout : out.length = audio.length := by
    rw [embedBits_ok_length _ _ _ _ h2, hlen1]
  have hmapfst1 : ((List.range (bytes_to_bits hdr).length).zip
      (bytes_to_bits hdr)).map Prod.fst = List.range (bytes_to_bits hdr).length :=
    List.map_fst_zip _ _ (by simp)
  have hmapfst2 : (pos2.zip (bytes_to_bits C)).map Prod.fst = pos2 :=
    List.map_fst_zip _ _ (by omega)
  have hhead : ∀ i, i < 336 →
      out[i]? = some (writeBit (audio.getD i 0) lsb ((bytes_to_bits hdr).getD i 0)) := by
    intro i hi
    have hout_flat1 : out[i]? = flat1[i]? :=
      embedBits_getElem?_of_not_mem lsb _ flat1 out i h2
        (fun p hp => by
          have := (hbound p.1 (List.of_mem_zip hp).1).1
          omega)
    have hpair : ((List.range (bytes_to_bits hdr).length).zip (bytes_to_bits hdr))[i]? =
        some (i, (bytes_to_bits hdr).getD i 0) := by
      apply List.getElem?_zip_eq_some.mpr
      refine ⟨by rw [List.getElem?_range (by omega)], ?_⟩
      rw [List.getElem?_eq_getElem (by omega)]
      congr 1
      exact (List.getD_eq_getElem _ 0 (by omega)).symm
    have hflat1 : flat1[i]? =
        some (writeBit (audio.getD i 0) lsb ((bytes_to_bits hdr).getD i 0)) :=
      embedBits_getElem?_of_mem lsb _ audio flat1 i _ h1
        (by rw [hmapfst1]; exact List.nodup_range _)
        (List.getElem?_mem hpair)
    rw [hout_flat1, hflat1]
  have hframe : ∀ q, q ∉ embedTargets audio.length (8 * C.length) salt sc →
      out[q]? = audio[q]? := by
    intro q hq
    rw [← htargets] at hq
    simp only [List.mem_append, List.mem_range] at hq
    push_neg at hq
    obtain ⟨hq1, hq2⟩ := hq
    have hout_flat1 : out[q]? = flat1[q]? :=
      embedBits_getElem?_of_not_mem lsb _ flat1 out q h2
        (fun p hp he => hq2 (he ▸ (List.of_mem_zip hp).1))
    have hflat1 : flat1[q]? = audio[q]? :=
      embedBits_getElem?_of_not_mem lsb _ audio flat1 q h1
        (fun p hp he => by
          have := List.mem_range.mp (List.of_mem_zip hp).1
          omega)
    rw [hout_flat1, hflat1]
  refine ⟨hlenout, ⟨hdr, hch, hhead⟩, ?_, hframe⟩
  intro i
  by_cases hilen : i < audio.length
  · by_cases hi336 : i < 336
    · rw [getD_of_getElem?_some (hhead i hi336), writeBit_shiftRight _ _ _ hl1]
    · by_cases hipos : i ∈ pos2
      · obtain ⟨j, hj, hji⟩ := List.getElem_of_mem hipos
        have hjb : j < (bytes_to_bits C).length := by omega
        have hpair : (pos2.zip (bytes_to_bits C))[j]? =
            some (i, (bytes_to_bits C).getD j 0) := by
          apply List.getElem?_zip_eq_some.mpr
          refine ⟨by rw [List.getElem?_eq_getElem hj, hji], ?_⟩
          rw [List.getElem?_eq_getElem hjb]
          congr 1
          exact (List.getD_eq_getElem _ 0 hjb).symm
        have hout_i : out[i]? =
            some (writeBit (flat1.getD i 0) lsb ((bytes_to_bits C).getD j 0)) :=
          embedBits_getElem?_of_mem lsb _ flat1 out i _ h2
            (by rw [hmapfst2]; exact hnd) (List.getElem?_mem hpair)
        have hflat1_i : flat1[i]? = audio[i]? :=
          embedBits_getElem?_of_not_mem lsb _ audio flat1 i h1
            (fun p hp he => by
              have := List.mem_range.mp (List.of_mem_zip hp).1
              omega)
        have hgd : flat1.getD i 0 = audio.getD i 0 := by
          rw [List.getD_eq_getElem?_getD, List.getD_eq_getElem?_getD, hflat1_i]
        rw [getD_of_getElem?_some hout_i, hgd, writeBit_shiftRight _ _ _ hl1]
      · have hnot : i ∉ embedTargets audio.length (8 * C.length) salt sc := by
          rw [← htargets]
          simp only [List.mem_append, List.mem_range]
          push_neg
          exact ⟨by omega, hipos⟩
        have := hframe i hnot
        rw [List.getD_eq_getElem?_getD, List.getD_eq_getElem?_getD, this]
  · rw [getD_zero_of_le out i (by omega), getD_zero_of_le audio i (by omega)]

set_option maxRecDepth 400000 in
/-- Witness for C4 on a concrete successful embed call. -/
theorem C4_frame_witness :
    ((embed_message (List.replicate 336 2) [] (List.replicate 16 0) (List.replicate 12 0)
      1 false).toOption.getD []).length = (List.replicate 336 (2 : Nat)).length :=
  (C4_frame (List.replicate 336 2) [] (List.replicate 16 0) (List.replicate 12 0) 1 false
    _ (Or.inl rfl) (by decide)).1

end AudioCryptor
